import Mathlib

/-!
Verification development for the formix form-state engine
(`src/helpers.tsx`, `src/index.tsx`).

The engine's state trees are JSON-like JavaScript values.  We embed them as
the inductive type `Formix.JSVal`:

* plain objects carry an ordered association list of own enumerable string
  properties (JS objects preserve insertion order; keys are assumed not to
  collide with inherited prototype properties such as `toString`);
* arrays carry their element list plus an association list of their
  non-index ("expando") string properties, which the source's `set` can
  create by assigning a non-index key to an array.  Array holes (created by
  out-of-bounds index writes) are modelled as `undef` elements; the only
  observable difference from real holes is the `in` membership test, which
  none of the verified claims exercise on holed slots;
* `promise` models the `Promise` objects produced by the un-awaited
  `getUpdatedValue` call in `setState` (`index.tsx` line 147).  A promise is
  `typeof === "object"`, has the `Object.prototype.toString` tag
  `"[object Promise]"`, and starts with no own enumerable properties; the
  payload records the value the promise would resolve to.  Two distinct
  promise objects are never `===`-equal and `isEqual` reports them unequal
  (its `"[object Object]"` guard rejects them).
* `Date` and `RegExp` values are outside the modelled state-tree domain
  (none of the claims requires them); the corresponding branches of the
  source's `isEqual` are therefore not represented.

Numbers are modelled as `Int` (the claims only exercise integral values;
IEEE-754 effects such as `NaN` payloads play no role in them).
-/

namespace Formix

/-- One character is an ASCII decimal digit. -/
def isDigitChar (c : Char) : Bool := '0' ≤ c ∧ c ≤ '9'

/-- The JS regular expression test `/^\d+$/.test(s)`: a non-empty string of
ASCII digits.  Used by `get` to decide whether a path segment addresses an
array index (`helpers.tsx` line 98). -/
def isDigits (s : String) : Bool := s ≠ "" ∧ s.data.all isDigitChar

/-- Numeric value of a digit string, as computed by `Number.parseInt(s, 10)`
on a string already known to match `/^\d+$/` (`helpers.tsx` line 99).
JS number precision limits are irrelevant at the sizes the claims use. -/
def digitsVal (s : String) : Nat := s.data.foldl (fun n c => n * 10 + (c.toNat - 48)) 0

/-- `s` is the canonical string form of an array index: what JavaScript
property semantics treat as an element access on an array (`arr["01"]` is an
expando property, `arr["1"]` is element 1).  Canonical means all digits with
no leading zero (except `"0"` itself). -/
def canonIdx (s : String) : Option Nat :=
  if isDigits s ∧ (s = "0" ∨ s.data.head? ≠ some '0') then some (digitsVal s) else none

/-- A JavaScript whitespace character (the ASCII ones; the exotic Unicode
space code points never occur in the claims' inputs). -/
def isWsChar (c : Char) : Bool := c = ' ' ∨ c = '\t' ∨ c = '\n' ∨ c = '\r'

/-- JS `String.prototype.trim()`, computably over the character list
(Lean's own `String.trim` is irreducible to the kernel, so the evaluating
proofs below need this explicit version). -/
def trimJS (s : String) : String :=
  String.mk (((s.data.dropWhile isWsChar).reverse.dropWhile isWsChar).reverse)

/-- JS `path.split(".")`, computably: splits at every dot, keeping empty
pieces, and maps the empty string to `[""]` — the same behavior as Lean's
`String.splitOn "."`, re-implemented so that it reduces in the kernel. -/
def splitDotsAux : List Char → List Char → List String
  | [], acc => [String.mk acc.reverse]
  | '.' :: rest, acc => String.mk acc.reverse :: splitDotsAux rest []
  | c :: rest, acc => splitDotsAux rest (c :: acc)

/-- See `splitDotsAux`. -/
def splitDots (s : String) : List String := splitDotsAux s.data []

/-- Whether `Number(s)` is `NaN` for a path segment `s`.  This is the test
the source's `set` applies via `isNaN(Number(seg))` (`helpers.tsx` lines
139 and 152).  `Number` trims whitespace, maps the empty remainder to `0`,
and accepts decimal literals (optionally signed, with optional fraction and
exponent), `Infinity`, and unsigned `0x`/`0o`/`0b` literals; anything else
is `NaN`.  Path segments never contain `.` (paths are split on dots), so a
fractional part cannot begin mid-segment, but the general form is kept. -/
def jsNumberNaN (s : String) : Bool :=
  let t := trimJS s
  if t = "" then false
  else ¬ (validNumber t.data)
where
  /-- Optionally signed decimal or `Infinity`; or unsigned radix literal. -/
  validNumber : List Char → Bool
    | [] => false
    | '+' :: rest => decimalOrInf rest
    | '-' :: rest => decimalOrInf rest
    | cs => decimalOrInf cs ∨ radixLit cs
  decimalOrInf (cs : List Char) : Bool :=
    cs = "Infinity".data ∨ decimalLit cs
  /-- `digits [. digits] [exp]` or `. digits [exp]`. -/
  decimalLit (cs : List Char) : Bool :=
    let intPart := cs.takeWhile isDigitChar
    let rest := cs.dropWhile isDigitChar
    match rest with
    | [] => intPart ≠ []
    | '.' :: rest2 =>
        let frac := rest2.takeWhile isDigitChar
        let rest3 := rest2.dropWhile isDigitChar
        (intPart ≠ [] ∨ frac ≠ []) ∧ expPart rest3
    | _ => intPart ≠ [] ∧ expPart rest
  expPart : List Char → Bool
    | [] => true
    | 'e' :: rest => signedDigits rest
    | 'E' :: rest => signedDigits rest
    | _ => false
  signedDigits : List Char → Bool
    | '+' :: rest => rest ≠ [] ∧ rest.all isDigitChar
    | '-' :: rest => rest ≠ [] ∧ rest.all isDigitChar
    | rest => rest ≠ [] ∧ rest.all isDigitChar
  radixLit : List Char → Bool
    | '0' :: 'x' :: rest => rest ≠ [] ∧ rest.all (fun c => isDigitChar c ∨ ('a' ≤ c ∧ c ≤ 'f') ∨ ('A' ≤ c ∧ c ≤ 'F'))
    | '0' :: 'X' :: rest => rest ≠ [] ∧ rest.all (fun c => isDigitChar c ∨ ('a' ≤ c ∧ c ≤ 'f') ∨ ('A' ≤ c ∧ c ≤ 'F'))
    | '0' :: 'o' :: rest => rest ≠ [] ∧ rest.all (fun c => '0' ≤ c ∧ c ≤ '7')
    | '0' :: 'O' :: rest => rest ≠ [] ∧ rest.all (fun c => '0' ≤ c ∧ c ≤ '7')
    | '0' :: 'b' :: rest => rest ≠ [] ∧ rest.all (fun c => c = '0' ∨ c = '1')
    | '0' :: 'B' :: rest => rest ≠ [] ∧ rest.all (fun c => c = '0' ∨ c = '1')
    | _ => false

/-- Whether `Number.parseInt(s, 10)` is `NaN`: after skipping leading
whitespace and an optional single sign, there is no leading digit.
Used by `isFieldRequired` (`helpers.tsx` line 227). -/
def jsParseIntNaN (s : String) : Bool :=
  match s.data.dropWhile (fun c => c = ' ' ∨ c = '\t' ∨ c = '\n' ∨ c = '\r') with
  | [] => true
  | '+' :: rest => ¬ (rest.head?.any isDigitChar)
  | '-' :: rest => ¬ (rest.head?.any isDigitChar)
  | c :: _ => ¬ isDigitChar c

/-- Index of the first empty string in a list of path segments, mirroring
`keys.findIndex(key => key === '')` in `set` (`helpers.tsx` line 122). -/
def firstEmptyIdx : List String → Option Nat
  | [] => none
  | "" :: _ => some 0
  | _ :: rest => (firstEmptyIdx rest).map (· + 1)

/-- JavaScript values of the engine's state-tree domain (see the module
doc-comment for the modelling conventions). -/
inductive JSVal where
  | undef : JSVal
  | null : JSVal
  | bool (b : Bool) : JSVal
  | num (n : Int) : JSVal
  | str (s : String) : JSVal
  | obj (fields : List (String × JSVal)) : JSVal
  | arr (elems : List JSVal) (props : List (String × JSVal)) : JSVal
  | promise (payload : JSVal) (props : List (String × JSVal)) : JSVal
deriving Repr

/-- First binding of key `k` in an association list (JS property lookup). -/
def lookupA (fs : List (String × JSVal)) (k : String) : Option JSVal :=
  (fs.find? (fun p => p.1 = k)).map (·.2)

/-- Whether an association list binds key `k`. -/
def hasKeyA (fs : List (String × JSVal)) (k : String) : Bool :=
  (fs.find? (fun p => p.1 = k)).isSome

/-- JS property assignment on an association list: overwrite an existing
binding in place, otherwise append the new binding (JS objects append new
keys at the end of the insertion order). -/
def updateA (fs : List (String × JSVal)) (k : String) (v : JSVal) : List (String × JSVal) :=
  if hasKeyA fs k then fs.map (fun p => if p.1 = k then (k, v) else p)
  else fs ++ [(k, v)]

namespace JSVal

/-- `typeof v === "object"` (`null`, plain objects, arrays and promises all
report `"object"`). -/
def typeofObject : JSVal → Bool
  | .null | .obj _ | .arr _ _ | .promise _ _ => true
  | _ => false

/-- Raw JS property read `v?.[k]`: the final-segment access performed by
`get` (`helpers.tsx` line 108).  Optional chaining maps `null`/`undefined`
to `undefined`; arrays expose elements at canonical indices, their `length`,
and expando properties; strings are indexable and expose `length`; other
primitives have no own properties. -/
def rawGet (v : JSVal) (k : String) : JSVal :=
  match v with
  | .obj fs => (lookupA fs k).getD .undef
  | .arr es ps =>
      if k = "length" then .num es.length
      else match canonIdx k with
        | some i => es.getD i .undef
        | none => (lookupA ps k).getD .undef
  | .str s =>
      if k = "length" then .num s.length
      else match canonIdx k with
        | some i => match s.data.get? i with
            | some c => .str (String.mk [c])
            | none => .undef
        | none => .undef
  | .promise _ ps => (lookupA ps k).getD .undef
  | _ => (.undef : JSVal)

/-- The `segment in current` membership test used by `set`
(`helpers.tsx` line 138), on the container values `set` can reach. -/
def hasProp (v : JSVal) (k : String) : Bool :=
  match v with
  | .obj fs => hasKeyA fs k
  | .arr es ps =>
      (match canonIdx k with
       | some i => i < es.length
       | none => hasKeyA ps k)
  | .promise _ ps => hasKeyA ps k
  | _ => false

/-- Raw JS property write `v[k] := x` on a container.  Writing a canonical
index past an array's length pads the intervening slots (JS creates holes
there; we model them as `undef`, cf. the module doc-comment).  The
non-container case is unreachable in `set`'s control flow (it raises a
`TypeError` first) and is the identity here. -/
def rawWrite (v : JSVal) (k : String) (x : JSVal) : JSVal :=
  match v with
  | .obj fs => .obj (updateA fs k x)
  | .arr es ps =>
      (match canonIdx k with
       | some i =>
          if i < es.length then .arr (es.set i x) ps
          else .arr (es ++ List.replicate (i - es.length) .undef ++ [x]) ps
       | none => .arr es (updateA ps k x))
  | .promise w ps => .promise w (updateA ps k x)
  | other => other

end JSVal

/-- One step of `get`'s traversal loop (`helpers.tsx` lines 97-106): an
array is indexed when the segment matches `/^\d+$/` (via `parseInt`), a
plain object — and only a value whose `Object.prototype.toString` tag is
`"[object Object]"` — is read by key, and every other combination returns
`undefined` (the loop's early `return undefined`, which we model by letting
`undefined` propagate: every later step and the final read map it to
`undefined` again). -/
def stepWalk (v : JSVal) (k : String) : JSVal :=
  match v with
  | .arr es _ => if isDigits k then es.getD (digitsVal k) .undef else .undef
  | .obj fs => (lookupA fs k).getD .undef
  | _ => (.undef : JSVal)

/-- `get`'s traversal over the non-final path segments. -/
def walkSegs (v : JSVal) : List String → JSVal
  | [] => v
  | k :: ks => walkSegs (stepWalk v k) ks

/-- The source's `get(obj, path)` (`helpers.tsx` lines 90-109).  An empty
path returns the root; so does a path whose final segment is empty (the
`if (!lastKey) return obj` guard after `keys.pop()`); otherwise the
non-final segments are walked with `stepWalk` and the final segment is a
raw property read. -/
def get (o : JSVal) (path : String) : JSVal :=
  if path = "" then o
  else
    let keys := splitDots path
    let last := keys.getLastD ""
    if last = "" then o
    else (walkSegs o keys.dropLast).rawGet last

mutual

/-- The source's deep structural equality `isEqual(a, b)`
(`helpers.tsx` lines 4-43), on the modelled value domain.  Primitives
compare by value (the `a === b` fast path); `null` against anything else is
rejected by the `a == null || b == null` guard; a `typeof` mismatch is
rejected; arrays compare by length and element-wise recursion; plain
objects compare by key-set equality and per-key recursion; every other
combination falls through to the final `return false` — in particular two
distinct `Promise` objects, whose `Object.prototype.toString` tag is not
`"[object Object]"`, are never equal (object identity, the one case the
`===` fast path could accept, is not representable for the pure trees of
this model and never arises in the claims). -/
def isEqual : JSVal → JSVal → Bool
  | .undef, .undef => true
  | .null, .null => true
  | .bool a, .bool b => a = b
  | .num a, .num b => a = b
  | .str a, .str b => a = b
  | .arr as₁ _, .arr bs₁ _ => as₁.length = bs₁.length ∧ isEqualList as₁ bs₁
  | .obj fa, .obj fb => fa.length = fb.length ∧ isEqualFields fa fb
  | _, _ => false

/-- Element-wise recursion of `isEqual` over arrays (the indexed `for` loop
at `helpers.tsx` lines 19-21, run after the length check). -/
def isEqualList : List JSVal → List JSVal → Bool
  | [], [] => true
  | a :: as₁, b :: bs₁ => isEqual a b ∧ isEqualList as₁ bs₁
  | _, _ => false

/-- Per-key recursion of `isEqual` over object fields (the `for key of
keysA` loop at `helpers.tsx` lines 34-37): every key of `a` must be a key
of `b` and the values must be `isEqual`. -/
def isEqualFields : List (String × JSVal) → List (String × JSVal) → Bool
  | [], _ => true
  | (k, v) :: rest, fb =>
      hasKeyA fb k ∧ isEqual v ((lookupA fb k).getD .undef) ∧ isEqualFields rest fb

end

/-- The exceptions `set` can raise.  `emptyKey i` is the
`InvalidPathError` "empty key at index i" (`helpers.tsx` line 124);
`nonNumericArrayIndex` is the `InvalidPathError` "cannot use non-numeric
index on array" (line 153); `typeError` is the runtime `TypeError` JS
raises when the walk descends into `null` (`typeof null === "object"`
passes the descend check, after which `segment in null` or
`null[last] = v` throws). -/
inductive SetErr where
  | emptyKey (i : Nat) : SetErr
  | nonNumericArrayIndex : SetErr
  | typeError : SetErr
deriving Repr, DecidableEq

/-- Whether a `set` outcome is one of the source's `InvalidPathError`
exceptions (as opposed to a success or a runtime `TypeError`). -/
def isInvalidPathErr : Except SetErr JSVal → Bool
  | .error (.emptyKey _) => true
  | .error .nonNumericArrayIndex => true
  | _ => false

/-- The fresh intermediate container `set` creates for an absent segment:
an array when the *next* segment is numeric per `!isNaN(Number(next))`,
otherwise a plain object (`helpers.tsx` line 139). -/
def freshFor (next : String) : JSVal :=
  if jsNumberNaN next then .obj [] else .arr [] []

/-- The value `current` descends into at an intermediate segment of
`set`'s loop (`helpers.tsx` lines 138-144): an absent key yields the fresh
container for the next segment (after being assigned into the node), a
present value that is not `typeof "object"` is replaced by `{}`, and a
present object — including `null`, which passes the `typeof` test — is
descended into as-is. -/
def childFor (v : JSVal) (s0 s1 : String) : JSVal :=
  if JSVal.hasProp v s0 then
    let c := JSVal.rawGet v s0
    if c.typeofObject then c else .obj []
  else freshFor s1

/-- Executes the walk-and-write loop of `set` (`helpers.tsx` lines
130-156) starting from the node `current` points at, in value semantics:
the returned pair is (the raised exception if any, the value this node
holds once the call finishes).  Because JavaScript assignment mutates the
node in place, this "value after execution" applies equally to the shallow
copy `result` and, when `current` aliases a subtree of the original root,
to that shared subtree — which is how `setOrigAfter` below reuses it.

Per the source: at an intermediate segment, an absent key is created as a
fresh container (`freshFor`), a present non-object value is replaced by
`{}` (note `typeof null === "object"`, so a present `null` is descended
into and the next operation raises a `TypeError`), and a present object is
descended into without copying; at the final segment, an array rejects a
segment with `isNaN(Number(seg))` and every container takes a raw
property write. -/
def mutSet : JSVal → List String → JSVal → Option SetErr × JSVal
  | v, [], _ => (none, v)
  | v, [last], value =>
      match v with
      | .arr es ps =>
          if jsNumberNaN last then (some .nonNumericArrayIndex, v)
          else (none, JSVal.rawWrite (.arr es ps) last value)
      | .obj fs => (none, JSVal.rawWrite (.obj fs) last value)
      | .promise w ps => (none, JSVal.rawWrite (.promise w ps) last value)
      | other => (some .typeError, other)
  | v, s0 :: s1 :: rest, value =>
      match v with
      | .obj fs =>
          let r := mutSet (childFor (.obj fs) s0 s1) (s1 :: rest) value
          (r.1, JSVal.rawWrite (.obj fs) s0 r.2)
      | .arr es ps =>
          let r := mutSet (childFor (.arr es ps) s0 s1) (s1 :: rest) value
          (r.1, JSVal.rawWrite (.arr es ps) s0 r.2)
      | .promise w ps =>
          let r := mutSet (childFor (.promise w ps) s0 s1) (s1 :: rest) value
          (r.1, JSVal.rawWrite (.promise w ps) s0 r.2)
      | other => (some .typeError, other)

/-- The value of the top-level shallow copy `set` starts from
(`helpers.tsx` line 127): `[...obj]` for an array (the spread iterates
elements only, dropping expando properties), `{...obj}` for anything else
with `typeof === "object"` (for a promise the spread collects its own
enumerable properties into a plain object). -/
def topCopy : JSVal → JSVal
  | .arr es _ => .arr es []
  | .promise _ ps => .obj ps
  | other => other

/-- Root guard of `set` (`helpers.tsx` line 112): only a non-null
`typeof "object"` value is processed; everything else is returned as-is. -/
def isContainerRoot : JSVal → Bool
  | .obj _ | .arr _ _ | .promise _ _ => true
  | _ => false

/-- The source's `set(obj, path, value)` (`helpers.tsx` lines 111-159), as
the value reachable from the returned root after the call (exceptions via
`Except`).  Non-container roots and the empty path are returned unchanged;
an empty path segment raises before anything is copied; otherwise the
walk-and-write loop runs from the shallow top-level copy. -/
def set (o : JSVal) (path : String) (value : JSVal) : Except SetErr JSVal :=
  if ¬ isContainerRoot o then .ok o
  else if path = "" then .ok o
  else
    let keys := splitDots path
    match firstEmptyIdx keys with
    | some i => .error (.emptyKey i)
    | none =>
        match mutSet (topCopy o) keys value with
        | (some e, _) => .error e
        | (none, r) => .ok r

/-- The value of the *original* root `obj` after `set(obj, path, value)`
returns (or raises) — the frame effect of `set` on its input.  Derived
from the source as follows.  The shallow copy at `helpers.tsx` line 127
duplicates only the top level, so copy and original share every child.
All loop writes at depth 0 (`current === result`) land in the copy and are
invisible to the original; that covers single-segment paths entirely, and
at a multi-segment path the first iteration's absent-key / non-object
replacement cases as well, after which the walk continues inside a fresh
subtree and never touches the original again.  The one remaining case is a
first segment whose existing child passes the `typeof === "object"` check:
`current` then aliases the original's child, and every subsequent write of
the loop mutates that shared subtree exactly as `mutSet` computes.  (When
`mutSet` raises, its returned value still reflects any writes made before
the exception, so no unchanged-on-error assumption is built in here; that
fact is proved separately.)  Note the membership and `typeof` tests of the
first iteration run against the *copy*: for an array root the copy has
dropped expando properties, which `topCopy` accounts for. -/
def setOrigAfter (o : JSVal) (path : String) (value : JSVal) : JSVal :=
  if ¬ isContainerRoot o then o
  else if path = "" then o
  else
    let keys := splitDots path
    match firstEmptyIdx keys with
    | some _ => o
    | none =>
        match keys with
        | [] => o
        | [_] => o
        | s0 :: s1 :: rest =>
            let base := topCopy o
            if JSVal.hasProp base s0 ∧ (JSVal.rawGet base s0).typeofObject then
              JSVal.rawWrite o s0 (mutSet (JSVal.rawGet base s0) (s1 :: rest) value).2
            else o

/-- `arr.slice(-n)` on a list: the last `n` elements — except that
JavaScript evaluates `slice(-0)` as `slice(0)`, returning the *whole*
array.  `setState` trims the undo stack with `newStack.slice(-undoLimit)`
(`index.tsx` line 159), so an `undoLimit` of `0` performs no trimming at
all; `undo` reads its entries with `undoStack().slice(-steps)`
(line 171). -/
def jsSliceNeg (n : Nat) (l : List α) : List α :=
  if n = 0 then l else l.drop (l.length - n)

/-- `arr.slice(0, -n)` on a list: drop the last `n` elements — except that
`slice(0, -0)` is `slice(0, 0)`, the empty array.  `undo` shrinks the undo
stack with `prev.slice(0, -steps)` (`index.tsx` line 182). -/
def jsSliceToNeg (n : Nat) (l : List α) : List α :=
  if n = 0 then [] else l.take (l.length - n)

/-- A path-keyed validation error, the source's `FormixError`
(`index.tsx` lines 60-63). -/
structure FormixError where
  path : String
  message : String
deriving Repr, DecidableEq

/-- One undo/redo record, the source's `HistoryEntry`
(`index.tsx` lines 106-110). -/
structure HistoryEntry where
  path : String
  value : JSVal
  prevValue : JSVal
deriving Repr

/-- State of one `createForm` instance, restricted to the signals the
claims are about (`index.tsx` lines 120-129).  `pending` models the
in-flight asynchronous validations: `revalidate` reads `state()`
synchronously before its `await` (`index.tsx` line 133), so each in-flight
call is captured by the snapshot it will validate, in call order; the
pending list has no request token or cancellation handle because the
source has none.  The `isValidating`/`isSubmitting` flags and the field
metas are omitted (no claim mentions them). -/
structure FormM where
  initialState : JSVal
  undoLimit : Nat
  state : JSVal
  undoStack : List HistoryEntry
  redoStack : List HistoryEntry
  errors : List FormixError
  pending : List JSVal
deriving Repr

/-- A freshly created form (`createForm`, `index.tsx` lines 114-142):
state is the initial state, both stacks are empty, and the constructor's
`revalidate()` call (line 142) has put one pending validation of the
initial snapshot in flight. -/
def mkForm (init : JSVal) (undoLimit : Nat) : FormM :=
  { initialState := init, undoLimit := undoLimit, state := init,
    undoStack := [], redoStack := [], errors := [], pending := [init] }

/-- An in-flight validation resolving (`revalidate`'s code after its
`await`, `index.tsx` lines 134-140): the result for the `i`-th pending
snapshot is published by overwriting the error list *unconditionally* —
the source compares no token, so any pending call may resolve at any time
and later-issued results can be overwritten by earlier-issued ones.
`validate` abstracts `props.schema.safeParseAsync` composed with
`formatZodIssues`: the error list the external validator produces for a
snapshot (empty on success). -/
def resolveValidation (validate : JSVal → List FormixError) (f : FormM) (i : Nat) : FormM :=
  match f.pending.get? i with
  | none => f
  | some snap =>
      { f with errors := validate snap, pending := f.pending.eraseIdx i }

/-- A new `revalidate()` call (as issued by `submit`, `index.tsx`
line 218): captures the current state as a pending snapshot. -/
def revalidateCall (f : FormM) : FormM :=
  { f with pending := f.pending ++ [f.state] }

/-- The source's `setState(path, update)` (`index.tsx` lines 144-168).

`getUpdatedValue` is an `async` function and its result is *not awaited*
(line 147), so `nextValue` is a freshly allocated `Promise` — modelled as
`JSVal.promise upd []` — wrapping the update value.  Consequently the
no-op guard `if (nextValue === currentValue) return` (line 148) never
fires: a fresh object is `===`-equal to nothing pre-existing, so the model
has no early-return branch.  (Function-valued updates behave identically
for the claims: their result is wrapped in the same fresh promise.)

Inside the `batch`, the history entry is appended and the undo stack
trimmed with `slice(-undoLimit)`, the redo stack is cleared, and the state
is replaced (whole-state for a whitespace-only path, else via `set`).  If
`set` throws, the exception escapes after the two stack signals are
already written — Solid's `batch` does not roll back — so the returned
form keeps the pushed entry and the cleared redo stack while the state and
the pending validations are untouched; `revalidate()` (line 167) runs only
on the non-throwing path, capturing the new state. -/
def setState (f : FormM) (path : String) (upd : JSVal) : FormM × Option SetErr :=
  let currentValue := if trimJS path = "" then f.state else get f.state path
  let nextValue : JSVal := .promise upd []
  let entry : HistoryEntry := { path := path, value := nextValue, prevValue := currentValue }
  let undoStack' := jsSliceNeg f.undoLimit (f.undoStack ++ [entry])
  if trimJS path = "" then
    ({ f with undoStack := undoStack', redoStack := [], state := nextValue,
              pending := f.pending ++ [nextValue] }, none)
  else
    match set f.state path nextValue with
    | .ok s' =>
        ({ f with undoStack := undoStack', redoStack := [], state := s',
                  pending := f.pending ++ [s'] }, none)
    | .error e =>
        ({ f with undoStack := undoStack', redoStack := [] }, some e)

/-- Replays history entries onto a state in the given order, writing
`pick entry` at `entry.path` (whole-state replacement for a
whitespace-only path, else via `set`) — the `forEach` loops of `undo`
(with `prevValue`, `index.tsx` lines 176-180) and `redo` (with `value`,
lines 198-202).  A `set` exception aborts the whole replay. -/
def applyEntries (pick : HistoryEntry → JSVal) : JSVal → List HistoryEntry → Except SetErr JSVal
  | s, [] => .ok s
  | s, e :: rest =>
      if trimJS e.path = "" then applyEntries pick (pick e) rest
      else match set s e.path (pick e) with
        | .ok s' => applyEntries pick s' rest
        | .error err => .error err

/-- The source's `undo(steps = 1)` (`index.tsx` lines 170-190).
`undoStack().slice(-steps)` selects the entries (all of them when
`steps = 0`, by the `slice(-0)` quirk); an empty selection returns
immediately.  The selected entries are applied newest-first with their
`prevValue` (the double `entries.reverse()` in the source restores the
original order before the redo push, so the redo stack receives them in
chronological order at its front, trimmed to `undoLimit` with
`slice(0, undoLimit)`).  All signal writes sit after the replay loop
inside the `batch`, so a `set` exception during the replay leaves the form
unchanged; `revalidate()` runs only on success. -/
def undo (f : FormM) (steps : Nat := 1) : FormM :=
  let entries := jsSliceNeg steps f.undoStack
  if entries.isEmpty then f
  else
    match applyEntries (fun e => e.prevValue) f.state entries.reverse with
    | .error _ => f
    | .ok s' =>
        { f with state := s',
                 undoStack := jsSliceToNeg steps f.undoStack,
                 redoStack := (entries ++ f.redoStack).take f.undoLimit,
                 pending := f.pending ++ [s'] }

/-- The source's `redo(steps = 1)` (`index.tsx` lines 192-212):
`redoStack().slice(0, steps)` selects from the front, the entries are
applied oldest-first with their `value`, moved to the end of the undo
stack (trimmed with `slice(-undoLimit)`), and `revalidate()` runs on
success. -/
def redo (f : FormM) (steps : Nat := 1) : FormM :=
  let entries := f.redoStack.take steps
  if entries.isEmpty then f
  else
    match applyEntries (fun e => e.value) f.state entries with
    | .error _ => f
    | .ok s' =>
        { f with state := s',
                 redoStack := f.redoStack.drop steps,
                 undoStack := jsSliceNeg f.undoLimit (f.undoStack ++ entries),
                 pending := f.pending ++ [s'] }

/-- The source's `canUndo(steps = 1)` (`index.tsx` line 214). -/
def canUndo (f : FormM) (steps : Nat := 1) : Bool :=
  steps ≤ f.undoStack.length

/-- The source's `canRedo(steps = 1)` (`index.tsx` line 215). -/
def canRedo (f : FormM) (steps : Nat := 1) : Bool :=
  steps ≤ f.redoStack.length

/-- JavaScript truthiness test used by `useField`'s `reset`
(`if (!initialValue) return`, `index.tsx` line 326): `undefined`, `null`,
`false`, `0`, `NaN` and the empty string are falsy.  (`NaN` has no
representative in the modelled `Int` numbers; every other falsy value is
covered.) -/
def falsy : JSVal → Bool
  | .undef | .null | .bool false | .num 0 | .str "" => true
  | _ => false

/-- The `reset` closure returned by `useField(path)` (`index.tsx` lines
324-328): read the initial value at `path`; if it is falsy, return without
doing anything; otherwise delegate to `form.setState(path, initialValue)`. -/
def fieldReset (f : FormM) (path : String) : FormM × Option SetErr :=
  let initialValue := get f.initialState path
  if falsy initialValue then (f, none)
  else setState f path initialValue

/-- Form states reachable from a fresh `createForm` instance through the
public operations the claims concern: mutations (`setState`, including the
field setters and `reset`, which delegate to it), `undo`, `redo`, new
`revalidate` calls (as issued by `submit`), resolutions of in-flight
validations, and `useField` resets.  `validate` is the abstracted external
validator. -/
inductive Reach (validate : JSVal → List FormixError) : FormM → Prop where
  | init (i : JSVal) (l : Nat) : Reach validate (mkForm i l)
  | step_set {f} (h : Reach validate f) (path : String) (upd : JSVal) :
      Reach validate (setState f path upd).1
  | step_undo {f} (h : Reach validate f) (steps : Nat) :
      Reach validate (undo f steps)
  | step_redo {f} (h : Reach validate f) (steps : Nat) :
      Reach validate (redo f steps)
  | step_revalidate {f} (h : Reach validate f) :
      Reach validate (revalidateCall f)
  | step_resolve {f} (h : Reach validate f) (i : Nat) :
      Reach validate (resolveValidation validate f i)
  | step_reset {f} (h : Reach validate f) (path : String) :
      Reach validate (fieldReset f path).1

/-- The modifier variants of `isFieldRequired`, the source's
`NullOrOptional` union (`helpers.tsx` line 206). -/
inductive NullOrOptional where
  | nullable : NullOrOptional
  | optional : NullOrOptional
deriving Repr, DecidableEq

/-- Structural view of a zod schema, as far as the requiredness resolver
inspects it: `ZodObject` with its `shape`, `ZodArray` with its `element`,
the `ZodOptional` and `ZodNullable` wrappers, and everything else
(`base`). -/
inductive ZodType where
  | base : ZodType
  | zobject (shape : List (String × ZodType)) : ZodType
  | zarray (element : ZodType) : ZodType
  | zoptional (inner : ZodType) : ZodType
  | znullable (inner : ZodType) : ZodType
deriving Repr

/-- `currentSchema instanceof ZodOptional`: whether the outermost
constructor is the optional wrapper (instanceof sees only the outermost
wrapper object, not what it wraps). -/
def ZodType.instOptional : ZodType → Bool
  | .zoptional _ => true
  | _ => false

/-- `currentSchema instanceof ZodNullable`. -/
def ZodType.instNullable : ZodType → Bool
  | .znullable _ => true
  | _ => false

/-- Shape lookup on a `zobject`. -/
def ZodType.shapeLookup (shape : List (String × ZodType)) (k : String) : Option ZodType :=
  (shape.find? (fun p => p.1 = k)).map (·.2)

/-- The source's `isFieldRequiredCheck(currentSchema, variant)`
(`helpers.tsx` lines 187-204): with both variants requested, required
means the schema is neither wrapper; with a single variant requested, only
that wrapper makes it not required; with no variant requested it is always
required. -/
def isFieldRequiredCheck (currentSchema : ZodType) (variant : List NullOrOptional) : Bool :=
  let checkNullable := variant.contains .nullable
  let checkOptional := variant.contains .optional
  if checkNullable ∧ checkOptional then
    ¬ (currentSchema.instOptional ∨ currentSchema.instNullable)
  else if checkNullable then ¬ currentSchema.instNullable
  else if checkOptional then ¬ currentSchema.instOptional
  else true

/-- The walking loop of `isFieldRequired` (`helpers.tsx` lines 219-235):
an object descends into the named field of its shape (error when absent),
an array descends into its element schema whenever `parseInt(part, 10)` is
not `NaN` (the index value itself is ignored), and any other schema kind
is a path error.  The error strings stand in for the `InvalidPathError`
messages thrown there. -/
def walkSchema : List String → ZodType → Except String ZodType
  | [], s => .ok s
  | part :: rest, s =>
      match s with
      | .zobject shape =>
          match ZodType.shapeLookup shape part with
          | some sub => walkSchema rest sub
          | none => .error "property does not exist"
      | .zarray element =>
          if jsParseIntNaN part then .error "invalid array index"
          else walkSchema rest element
      | _ => .error "not an object or array"

/-- The source's `isFieldRequired(schema, path, variant)`
(`helpers.tsx` lines 207-238): the empty path checks the root schema
itself, otherwise the path is split on dots, walked through the schema's
structural description, and the resolved sub-schema is classified by
`isFieldRequiredCheck`. -/
def isFieldRequired (schema : ZodType) (path : String)
    (variant : List NullOrOptional := [.nullable, .optional]) : Except String Bool :=
  if path = "" then .ok (isFieldRequiredCheck schema variant)
  else (walkSchema (splitDots path) schema).map (isFieldRequiredCheck · variant)

/-- A schema is "wrapped by" a modifier, in the sense of the claim's
words: the modifier occurs somewhere in the chain of wrappers around the
schema — not necessarily outermost.  (Spec comparison definition used to
state and refute the claim; the source's check is `instanceof` on the
outermost constructor only.) -/
def wrappedBy : ZodType → NullOrOptional → Bool
  | .zoptional inner, m => m = .optional ∨ wrappedBy inner m
  | .znullable inner, m => m = .nullable ∨ wrappedBy inner m
  | _, _ => false

/-- Keys of an association list are pairwise distinct (JavaScript objects
cannot carry duplicate property keys, so only such lists denote real
values). -/
def nodupKeysA : List (String × JSVal) → Bool
  | [] => true
  | (k, _) :: rest => !(hasKeyA rest k) && nodupKeysA rest

mutual

/-- A modelled value denotes a real JavaScript value: all property lists
have pairwise-distinct keys, recursively, and an array carries no expando
property named `length` (on a real array, `length` is the built-in length
slot, never an own enumerable string property). -/
def WF : JSVal → Bool
  | .obj fs => nodupKeysA fs && WFfields fs
  | .arr es ps => WFlist es && (!(hasKeyA ps "length") && (nodupKeysA ps && WFfields ps))
  | .promise w ps => WF w && (nodupKeysA ps && WFfields ps)
  | _ => true

/-- `WF` on every element of a list. -/
def WFlist : List JSVal → Bool
  | [] => true
  | v :: rest => WF v && WFlist rest

/-- `WF` on every value of an association list. -/
def WFfields : List (String × JSVal) → Bool
  | [] => true
  | (_, v) :: rest => WF v && WFfields rest

end

/-- Spec-side description of when one traversal step of `get` genuinely
resolves: a plain object must bind the key, an array must be addressed by
a `/^\d+$/` segment whose `parseInt` value is in bounds, and nothing else
resolves.  (Written from the claim's wording of resolvable segments,
to be compared with the source-derived `stepWalk`.) -/
def resolvesStep (v : JSVal) (k : String) : Bool :=
  match v with
  | .obj fs => hasKeyA fs k
  | .arr es _ => isDigits k ∧ digitsVal k < es.length
  | _ => false

/-- Sufficient condition on a (top-copied) root and a segment list under
which writing with `set` can be read back by `get` (claim C6's
read-after-write).  It rules out exactly the mismatches between the two
accessors' addressing schemes: at an intermediate step the walk must pass
through a plain object, or through an array addressed by a *canonical*
index (non-canonical digit strings such as `"01"` are written as expando
properties by `set` but read as parsed indices by `get`; promises are
opaque to `get`); at the final step an array segment must survive the
`isNaN(Number(seg))` guard and must not be the `length` property.  The
intermediate child mirrors `set`'s creation rules: an absent key becomes a
fresh container, a present non-object is replaced by `{}`, and a present
object (including `null`, excluded here because descending into it
throws) is descended into. -/
def SafeWalk : JSVal → List String → Bool
  | _, [] => false
  | v, [last] =>
      match v with
      | .obj _ => true
      | .arr _ _ => ¬ jsNumberNaN last ∧ last ≠ "length"
      | _ => false
  | v, s0 :: s1 :: rest =>
      match v with
      | .obj fs => SafeWalk (childFor (.obj fs) s0 s1) (s1 :: rest)
      | .arr es ps =>
          match canonIdx s0 with
          | none => false
          | some _ => SafeWalk (childFor (.arr es ps) s0 s1) (s1 :: rest)
      | _ => false

/-- State evolution under a sequence of whole-state mutations: each
`setState` with a whitespace-only path replaces the state by the fresh
promise wrapping the update (`index.tsx` line 163). -/
def wsState (s : JSVal) : List JSVal → JSVal
  | [] => s
  | v :: vs => wsState (.promise v []) vs

/-- The history entries a sequence of whole-state mutations pushes,
oldest first: each records the pre-mutation state as `prevValue` and the
fresh promise as `value`. -/
def wsEntries (s : JSVal) : List JSVal → List HistoryEntry
  | [] => []
  | v :: vs => { path := "", value := .promise v [], prevValue := s } :: wsEntries (.promise v []) vs

/-- Applies a sequence of whole-state `setState` mutations to a form. -/
def applyWholeSets (f : FormM) (vs : List JSVal) : FormM :=
  vs.foldl (fun g v => (setState g "" v).1) f

/-- External validator used by the C1 demonstration: the snapshot produced
by the latest mutation of the trace validates cleanly, every other
snapshot fails.  (The schema validator is an external collaborator; any
function of the snapshot is a legitimate instance.) -/
def exValidator : JSVal → List FormixError
  | .promise (.str "C") _ => []
  | _ => [{ path := "name", message := "too short" }]

/-- C1 trace, step 0: a fresh form over the initial state `"A"`. -/
def c1Form0 : FormM := mkForm (.str "A") 500

/-- C1 trace, step 1: mutation to `"B"` (spawns validation of snapshot 1). -/
def c1Form1 : FormM := (setState c1Form0 "" (.str "B")).1

/-- C1 trace, step 2: mutation to `"C"` (spawns validation of snapshot 2). -/
def c1Form2 : FormM := (setState c1Form1 "" (.str "C")).1

/-- C1 trace, final: the validation spawned by the *latest* mutation
resolves first, then the older in-flight validation resolves. -/
def c1Final : FormM :=
  resolveValidation exValidator (resolveValidation exValidator c1Form2 2) 1

/-- Form used by the C3 demonstration: current value at `"name"` is the
empty string and the update writes the empty string again. -/
def c3Form : FormM := mkForm (.obj [("name", .str "")]) 500

/-- Form used by the C10 witness: the initial value at `"flag"` is the
falsy `false`, and the current value differs from it. -/
def c10Form : FormM :=
  { mkForm (.obj [("flag", .bool false)]) 500 with state := .obj [("flag", .bool true)] }

/-- Reachable form used by the C5 witness: one mutation applied to a fresh
form with `undoLimit = 3`. -/
def c5Form : FormM := (setState (mkForm (.num 0) 3) "" (.num 1)).1

/-- Form used by the C4 witness: a fresh form over the state `0` with the
default `undoLimit` of `500`. -/
def c4Form : FormM := mkForm (.num 0) 500

/-- Form used by the C4 counterexample: one mutation at the
structure-creating path `"a.b"` applied to a fresh form over `obj []`. -/
def c4BadForm : FormM := (setState (mkForm (.obj []) 500) "a.b" (.num 5)).1

/-- C1: the claim states that every `revalidate` invocation carries a
monotonically increasing request token and that only the result matching
the latest issued token may update the published error list, stale results
being discarded.  The source's `revalidate` (`index.tsx` lines 131-141)
carries no token of any kind and publishes whichever result resolves,
unconditionally.  This theorem evaluates the embedded orchestrator on the
failing trace: two whole-state mutations put two validations in flight
(besides the constructor's); the validation of the *latest* snapshot
resolves first and publishes the empty error list, after which the stale
validation of the *earlier* snapshot resolves and overwrites it — the
published errors end up being those of the superseded snapshot, exactly
what the claim requires to be impossible. -/
theorem revalidate_stale_result_clobbers_fresh :
    c1Form2.pending = [.str "A", .promise (.str "B") [], .promise (.str "C") []] ∧
    c1Form2.state = .promise (.str "C") [] ∧
    exValidator c1Form2.state = [] ∧
    (resolveValidation exValidator c1Form2 2).errors = [] ∧
    c1Final.errors = [{ path := "name", message := "too short" }] :=
  ⟨rfl, rfl, rfl, rfl, rfl⟩

/-- C2: the claim states that `set(root, path, v)` never mutates `root` or
any of its existing substructure and copies every container on the path.
The source (`helpers.tsx` lines 127-156) shallow-copies only the top
level; descending into an existing object child aliases the original's
subtree, and the subsequent write mutates it in place.  Evaluating the
embedded frame effect at `root = obj [a := obj [b := 1]]`, `path = "a.b"`,
`v = 2`: after the call the original root holds `2` at `a.b` and no longer
deep-equals its pre-call snapshot.  (For contrast, the same evaluation on
the single-segment path `"b"` leaves the root untouched, confirming the
failure is specific to the missing deep copies.) -/
theorem set_deep_write_mutates_original :
    setOrigAfter (.obj [("a", .obj [("b", .num 1)])]) "a.b" (.num 2)
      = .obj [("a", .obj [("b", .num 2)])] ∧
    isEqual (setOrigAfter (.obj [("a", .obj [("b", .num 1)])]) "a.b" (.num 2))
      (.obj [("a", .obj [("b", .num 1)])]) = false ∧
    setOrigAfter (.obj [("a", .obj [("b", .num 1)])]) "b" (.num 2)
      = .obj [("a", .obj [("b", .num 1)])] :=
  ⟨rfl, rfl, rfl⟩

/-- C3: the claim states that `setState(p, x)` with `x` structurally equal
(per `isEqual`) to the current value at `p` performs no history push and
no revalidation.  In the source the guard `if (nextValue === currentValue)
return` (`index.tsx` line 148) compares the *un-awaited promise* returned
by the `async` `getUpdatedValue` (line 147) against the current value by
reference, so it never fires and the guard is dead code.  Evaluating the
embedded `setState` at a state whose `"name"` field already holds `""` and
the update `""`: the update is `isEqual` to (indeed equal to) the current
value, yet a history entry is pushed, a revalidation is spawned, and the
state is corrupted by storing the pending promise at the path. -/
theorem setState_equal_update_still_pushes_and_revalidates :
    isEqual (.str "") (get c3Form.state "name") = true ∧
    (setState c3Form "name" (.str "")).1.undoStack
      = [{ path := "name", value := .promise (.str "") [], prevValue := .str "" }] ∧
    (setState c3Form "name" (.str "")).1.pending.length = c3Form.pending.length + 1 ∧
    (setState c3Form "name" (.str "")).1.state
      = .obj [("name", .promise (.str "") [])] :=
  ⟨rfl, rfl, rfl, rfl⟩

/-- C10: for every field path whose value in the form's initial state is
falsy, the `reset` returned by `useField` performs no mutation at all: the
guard `if (!initialValue) return` (`index.tsx` line 326) fires before
`setState` is reached, so no history entry is pushed, no revalidation is
spawned, and the whole form state — even a current value differing from
the initial one — is left untouched. -/
theorem useField_reset_falsy_initial_is_noop (f : FormM) (path : String)
    (h : falsy (get f.initialState path) = true) :
    fieldReset f path = (f, none) := by
  unfold fieldReset
  simp [h]

/-- Witness for `useField_reset_falsy_initial_is_noop`: the initial value
at `"flag"` is the falsy `false` while the current value is `true`, and
`reset` leaves the form unchanged. -/
theorem useField_reset_falsy_initial_is_noop_witness :
    falsy (get c10Form.initialState "flag") = true ∧
    fieldReset c10Form "flag" = (c10Form, none) :=
  ⟨rfl, useField_reset_falsy_initial_is_noop c10Form "flag" rfl⟩

theorem jsSliceNeg_length_le {α : Type _} (n : Nat) (hn : 1 ≤ n) (l : List α) :
    (jsSliceNeg n l).length ≤ n := by
  unfold jsSliceNeg
  rw [if_neg (by omega)]
  rw [List.length_drop]
  omega

theorem jsSliceNeg_isSuffix {α : Type _} (n : Nat) (l : List α) :
    (jsSliceNeg n l).IsSuffix l := by
  unfold jsSliceNeg
  split
  · exact List.suffix_refl l
  · exact List.drop_suffix _ l

theorem jsSliceToNeg_length_le {α : Type _} (n : Nat) (l : List α) :
    (jsSliceToNeg n l).length ≤ l.length := by
  unfold jsSliceToNeg
  split
  · simp
  · rw [List.length_take]
    omega

/-- Both branches of `setState` push the new entry onto the undo stack
trimmed with `slice(-undoLimit)`, clear the redo stack, and keep the
configured limit. -/
theorem setState_stack_shape (f : FormM) (p : String) (u : JSVal) :
    (setState f p u).1.redoStack = [] ∧
    (setState f p u).1.undoStack
      = jsSliceNeg f.undoLimit (f.undoStack ++
          [{ path := p, value := .promise u [],
             prevValue := if trimJS p = "" then f.state else get f.state p }]) ∧
    (setState f p u).1.undoLimit = f.undoLimit := by
  unfold setState
  by_cases h : trimJS p = ""
  · simp [h]
  · simp only [h, if_false]
    split <;> simp [h]

/-- `undo` either returns the form unchanged or shrinks the undo stack
with `slice(0, -steps)` and prepends the undone entries to the redo stack
trimmed with `slice(0, undoLimit)`. -/
theorem undo_shape (f : FormM) (steps : Nat) :
    undo f steps = f ∨
    ((undo f steps).undoLimit = f.undoLimit ∧
     (undo f steps).undoStack = jsSliceToNeg steps f.undoStack ∧
     (undo f steps).redoStack = (jsSliceNeg steps f.undoStack ++ f.redoStack).take f.undoLimit) := by
  unfold undo
  dsimp only
  split
  · exact Or.inl rfl
  · split
    · exact Or.inl rfl
    · exact Or.inr ⟨rfl, rfl, rfl⟩

/-- `redo` either returns the form unchanged or drops the redone entries
from the redo stack and appends them to the undo stack trimmed with
`slice(-undoLimit)`. -/
theorem redo_shape (f : FormM) (steps : Nat) :
    redo f steps = f ∨
    ((redo f steps).undoLimit = f.undoLimit ∧
     (redo f steps).redoStack = f.redoStack.drop steps ∧
     (redo f steps).undoStack = jsSliceNeg f.undoLimit (f.undoStack ++ f.redoStack.take steps)) := by
  unfold redo
  dsimp only
  split
  · exact Or.inl rfl
  · split
    · exact Or.inl rfl
    · exact Or.inr ⟨rfl, rfl, rfl⟩

/-- Resolving an in-flight validation touches only the error list and the
pending set. -/
theorem resolve_stacks (validate : JSVal → List FormixError) (f : FormM) (i : Nat) :
    (resolveValidation validate f i).undoStack = f.undoStack ∧
    (resolveValidation validate f i).redoStack = f.redoStack ∧
    (resolveValidation validate f i).undoLimit = f.undoLimit := by
  unfold resolveValidation
  split <;> exact ⟨rfl, rfl, rfl⟩

/-- Stack bounds hold after any single `setState`, whatever the stacks
held before (the fresh slice enforces them by itself). -/
theorem setState_bounds (f : FormM) (p : String) (u : JSVal) (hL : 1 ≤ f.undoLimit) :
    (setState f p u).1.undoStack.length ≤ (setState f p u).1.undoLimit ∧
    (setState f p u).1.redoStack.length ≤ (setState f p u).1.undoLimit := by
  obtain ⟨hr, hu, hl⟩ := setState_stack_shape f p u
  rw [hr, hu, hl]
  exact ⟨jsSliceNeg_length_le _ hL _, by simp⟩

/-- Bounds part of claim C5, proved over all reachable states. -/
theorem reach_stack_bounds (validate : JSVal → List FormixError) (f : FormM)
    (hf : Reach validate f) :
    1 ≤ f.undoLimit → f.undoStack.length ≤ f.undoLimit ∧ f.redoStack.length ≤ f.undoLimit := by
  induction hf with
  | init i l => intro _; simp [mkForm]
  | @step_set g h p u ih =>
      intro hL
      have hl := (setState_stack_shape g p u).2.2
      exact setState_bounds g p u (hl ▸ hL)
  | @step_undo g h steps ih =>
      rcases undo_shape g steps with heq | ⟨hl, hu, hr⟩
      · rw [heq]; exact ih
      · intro hL
        rw [hl] at hL
        constructor
        · rw [hu, hl]
          exact le_trans (jsSliceToNeg_length_le _ _) (ih hL).1
        · rw [hr, hl, List.length_take]
          omega
  | @step_redo g h steps ih =>
      rcases redo_shape g steps with heq | ⟨hl, hr, hu⟩
      · rw [heq]; exact ih
      · intro hL
        rw [hl] at hL
        constructor
        · rw [hu, hl]
          exact jsSliceNeg_length_le _ hL _
        · rw [hr, hl]
          exact le_trans (by rw [List.length_drop]; omega) (ih hL).2
  | step_revalidate h ih => exact ih
  | @step_resolve g h i ih =>
      obtain ⟨hu, hr, hl⟩ := resolve_stacks validate g i
      rw [hu, hr, hl]
      exact ih
  | @step_reset g h path ih =>
      unfold fieldReset
      dsimp only
      split
      · exact ih
      · intro hL
        have hl := (setState_stack_shape g path (get g.initialState path)).2.2
        exact setState_bounds g path (get g.initialState path) (hl ▸ hL)

/-- C5 (amended): provided `undoLimit ≥ 1`, at every reachable state of a
form instance both history stacks are bounded by `undoLimit`, every
`setState` mutation clears the redo stack entirely, and the undo stack
after a mutation is a suffix of the old stack extended by the new entry —
overflow is trimmed from the oldest end.  The amendment restricts the
claim to `undoLimit ≥ 1`: the source trims with `slice(-undoLimit)`
(`index.tsx` line 159) and JavaScript evaluates `slice(-0)` as `slice(0)`,
so with `undoLimit = 0` no trimming happens at all and the bound
`len(undoStack) ≤ undoLimit` is violated after the first mutation (see the
counterexample `undoLimit_zero_stack_exceeds_limit`). -/
theorem history_stacks_bounded_and_mutation_clears_redo
    (validate : JSVal → List FormixError) (f : FormM)
    (hf : Reach validate f) (hL : 1 ≤ f.undoLimit) :
    f.undoStack.length ≤ f.undoLimit ∧ f.redoStack.length ≤ f.undoLimit ∧
    ∀ (p : String) (u : JSVal), (setState f p u).1.redoStack = [] ∧
      ∃ e, ((setState f p u).1.undoStack).IsSuffix (f.undoStack ++ [e]) := by
  obtain ⟨h1, h2⟩ := reach_stack_bounds validate f hf hL
  refine ⟨h1, h2, fun p u => ⟨(setState_stack_shape f p u).1, ?_⟩⟩
  have hs := jsSliceNeg_isSuffix f.undoLimit (f.undoStack ++
    [{ path := p, value := .promise u [],
       prevValue := if trimJS p = "" then f.state else get f.state p }])
  rw [← (setState_stack_shape f p u).2.1] at hs
  exact ⟨_, hs⟩

/-- Witness for `history_stacks_bounded_and_mutation_clears_redo` at the
reachable form `c5Form` (one mutation on a fresh form with
`undoLimit = 3`). -/
theorem history_stacks_bounded_witness :
    c5Form.undoStack.length ≤ c5Form.undoLimit ∧
    c5Form.redoStack.length ≤ c5Form.undoLimit ∧
    (setState c5Form "x" (.num 2)).1.redoStack = [] ∧
    ∃ e, ((setState c5Form "x" (.num 2)).1.undoStack).IsSuffix (c5Form.undoStack ++ [e]) := by
  have h := history_stacks_bounded_and_mutation_clears_redo exValidator c5Form
    (Reach.step_set (Reach.init (.num 0) 3) "" (.num 1)) (by decide)
  exact ⟨h.1, h.2.1, (h.2.2 "x" (.num 2)).1, (h.2.2 "x" (.num 2)).2⟩

/-- Counterexample to claim C5 as stated: with `undoLimit = 0` the
invariant `len(undoStack) ≤ undoLimit` fails at a reachable state, because
`slice(-0)` returns the whole array and performs no trimming. -/
theorem undoLimit_zero_stack_exceeds_limit :
    (mkForm (.num 0) 0).undoLimit = 0 ∧
    (setState (mkForm (.num 0) 0) "" (.num 1)).1.undoLimit = 0 ∧
    (setState (mkForm (.num 0) 0) "" (.num 1)).1.undoStack.length = 1 :=
  ⟨rfl, rfl, rfl⟩

theorem suffix_eq_of_length {α : Type _} {s₁ s₂ l : List α} (h₁ : s₁ <:+ l) (h₂ : s₂ <:+ l)
    (h : s₁.length = s₂.length) : s₁ = s₂ := by
  obtain ⟨t₁, rfl⟩ := h₁
  obtain ⟨t₂, heq⟩ := h₂
  have hlen : t₂.length = t₁.length := by
    have := congrArg List.length heq
    simp only [List.length_append] at this
    omega
  exact (List.append_inj_right heq hlen).symm

theorem jsSliceNeg_length {α : Type _} (n : Nat) (l : List α) :
    (jsSliceNeg n l).length = if n = 0 then l.length else l.length - (l.length - n) := by
  unfold jsSliceNeg
  split <;> simp_all [List.length_drop]

theorem jsSliceNeg_append_exact {α : Type _} (l₁ l₂ : List α) (n : Nat)
    (hn : n = l₂.length) (h1 : 1 ≤ n) : jsSliceNeg n (l₁ ++ l₂) = l₂ := by
  refine suffix_eq_of_length (jsSliceNeg_isSuffix _ _) ⟨l₁, rfl⟩ ?_
  rw [jsSliceNeg_length, if_neg (by omega)]
  simp only [List.length_append]
  omega

theorem jsSliceNeg_jsSliceNeg {α : Type _} (n L : Nat) (l : List α)
    (h1 : 1 ≤ n) (h2 : n ≤ L) :
    jsSliceNeg n (jsSliceNeg L l) = jsSliceNeg n l := by
  refine suffix_eq_of_length
    ((jsSliceNeg_isSuffix _ _).trans (jsSliceNeg_isSuffix _ _)) (jsSliceNeg_isSuffix _ _) ?_
  have hn0 : n ≠ 0 := by omega
  have hL0 : L ≠ 0 := by omega
  simp only [jsSliceNeg_length, if_neg hn0, if_neg hL0]
  omega

theorem jsSliceNeg_absorb {α : Type _} (L : Nat) (x y : List α) :
    jsSliceNeg L (jsSliceNeg L x ++ y) = jsSliceNeg L (x ++ y) := by
  by_cases hL : L = 0
  · subst hL; simp [jsSliceNeg]
  · refine suffix_eq_of_length
      ((jsSliceNeg_isSuffix _ _).trans ?_) (jsSliceNeg_isSuffix _ _) ?_
    · obtain ⟨t, ht⟩ := jsSliceNeg_isSuffix L x
      exact ⟨t, by rw [← List.append_assoc, ht]⟩
    · rw [jsSliceNeg_length, jsSliceNeg_length, if_neg hL, if_neg hL]
      simp only [List.length_append, jsSliceNeg_length, if_neg hL]
      omega

theorem jsSliceNeg_nil {α : Type _} (n : Nat) : jsSliceNeg n ([] : List α) = [] := by
  unfold jsSliceNeg
  split <;> simp

/-- Length of the entry list produced by a whole-state mutation batch. -/
theorem wsEntries_length (s : JSVal) (vs : List JSVal) :
    (wsEntries s vs).length = vs.length := by
  induction vs generalizing s with
  | nil => rfl
  | cons v vs ih => simp [wsEntries, ih]

/-- Every entry of a whole-state batch carries the whole-state path. -/
theorem wsEntries_paths (s : JSVal) (vs : List JSVal) :
    ∀ e ∈ wsEntries s vs, e.path = "" := by
  induction vs generalizing s with
  | nil => intro e he; cases he
  | cons v vs ih =>
      intro e he
      rw [show wsEntries s (v :: vs)
            = { path := "", value := .promise v [], prevValue := s }
              :: wsEntries (.promise v []) vs from rfl] at he
      rcases List.mem_cons.mp he with he | he
      · rw [he]
      · exact ih _ e he

/-- Final state and last pushed value of a whole-state mutation batch. -/
theorem wsState_getLast (s : JSVal) (vs : List JSVal) (h : vs ≠ []) :
    ∃ w, vs.getLast? = some w ∧ wsState s vs = .promise w [] ∧
      ((wsEntries s vs).getLast?.map (fun e => e.value)) = some (.promise w []) := by
  induction vs generalizing s with
  | nil => exact absurd rfl h
  | cons v vs ih =>
      cases vs with
      | nil => exact ⟨v, rfl, rfl, rfl⟩
      | cons v' vs' =>
          obtain ⟨w, hw1, hw2, hw3⟩ := ih (s := .promise v []) (by simp)
          refine ⟨w, by rw [List.getLast?_cons_cons]; exact hw1, hw2, ?_⟩
          have hexp : wsEntries s (v :: v' :: vs')
              = { path := "", value := .promise v [], prevValue := s }
                :: { path := "", value := .promise v' [], prevValue := .promise v [] }
                :: wsEntries (.promise v' []) vs' := rfl
          rw [hexp, List.getLast?_cons_cons]
          rw [show ({ path := "", value := .promise v' [], prevValue := .promise v [] }
                :: wsEntries (.promise v' []) vs')
              = wsEntries (.promise v []) (v' :: vs') from rfl]
          exact hw3

/-- Replaying entries that all carry the whole-state path never fails and
ends at the last picked value (or the start state when there are none). -/
theorem applyEntries_all_wholestate (pick : HistoryEntry → JSVal) (s : JSVal)
    (l : List HistoryEntry) (h : ∀ e ∈ l, trimJS e.path = "") :
    applyEntries pick s l
      = .ok (match l.getLast? with | none => s | some e => pick e) := by
  induction l generalizing s with
  | nil => rfl
  | cons e rest ih =>
      rw [show applyEntries pick s (e :: rest)
            = if trimJS e.path = "" then applyEntries pick (pick e) rest
              else match set s e.path (pick e) with
                | .ok s' => applyEntries pick s' rest
                | .error err => .error err from rfl]
      rw [if_pos (h e (by simp))]
      rw [ih (pick e) (fun e' he' => h e' (by simp [he']))]
      cases rest with
      | nil => rfl
      | cons r rs =>
          rw [List.getLast?_cons_cons]
          cases hgl : (r :: rs).getLast? with
          | none => exact absurd hgl (by simp)
          | some e' => rfl

/-- The spec of a non-empty whole-state mutation batch: the state follows
`wsState`, the undo stack is the old one extended by the batch entries and
trimmed, the redo stack is cleared, and the limit is preserved. -/
theorem applyWholeSets_spec (f : FormM) (vs : List JSVal) (h : vs ≠ []) :
    (applyWholeSets f vs).state = wsState f.state vs ∧
    (applyWholeSets f vs).undoStack
      = jsSliceNeg f.undoLimit (f.undoStack ++ wsEntries f.state vs) ∧
    (applyWholeSets f vs).redoStack = [] ∧
    (applyWholeSets f vs).undoLimit = f.undoLimit := by
  induction vs generalizing f with
  | nil => exact absurd rfl h
  | cons v vs ih =>
      have hstep : applyWholeSets f (v :: vs) = applyWholeSets (setState f "" v).1 vs := rfl
      have hset : (setState f "" v).1
          = { f with
               undoStack := (jsSliceNeg f.undoLimit (f.undoStack ++
                 [{ path := "", value := .promise v [], prevValue := f.state }])),
               redoStack := [], state := .promise v [],
               pending := f.pending ++ [.promise v []] } := by
        unfold setState
        simp [trimJS]
      cases vs with
      | nil =>
          rw [hstep, show applyWholeSets (setState f "" v).1 [] = (setState f "" v).1 from rfl, hset]
          exact ⟨rfl, rfl, rfl, rfl⟩
      | cons v' vs' =>
          obtain ⟨h1, h2, h3, h4⟩ := ih (f := (setState f "" v).1) (by simp)
          rw [hstep]
          refine ⟨?_, ?_, h3, ?_⟩
          · rw [h1, hset]
            rfl
          · rw [h2, hset]
            show jsSliceNeg f.undoLimit
                (jsSliceNeg f.undoLimit (f.undoStack ++ [_]) ++ wsEntries (.promise v []) (v' :: vs'))
              = _
            rw [jsSliceNeg_absorb, List.append_assoc]
            rfl
          · rw [h4, hset]

/-- Reduction of `undo` when the selected entries are non-empty and the
replay succeeds. -/
theorem undo_apply (f : FormM) (steps : Nat) (s' : JSVal)
    (hne : (jsSliceNeg steps f.undoStack).isEmpty = false)
    (happ : applyEntries (fun e => e.prevValue) f.state (jsSliceNeg steps f.undoStack).reverse
              = .ok s') :
    undo f steps
      = { f with
            state := s',
            undoStack := jsSliceToNeg steps f.undoStack,
            redoStack := (jsSliceNeg steps f.undoStack ++ f.redoStack).take f.undoLimit,
            pending := f.pending ++ [s'] } := by
  unfold undo
  dsimp only
  rw [hne, happ]
  rfl

/-- Reduction of `redo` when the selected entries are non-empty and the
replay succeeds. -/
theorem redo_apply (f : FormM) (steps : Nat) (s' : JSVal)
    (hne : (f.redoStack.take steps).isEmpty = false)
    (happ : applyEntries (fun e => e.value) f.state (f.redoStack.take steps) = .ok s') :
    redo f steps
      = { f with
            state := s',
            redoStack := f.redoStack.drop steps,
            undoStack := jsSliceNeg f.undoLimit (f.undoStack ++ f.redoStack.take steps),
            pending := f.pending ++ [s'] } := by
  unfold redo
  dsimp only
  rw [hne, happ]
  rfl

/-- C4 (amended): for every starting form, every *whole-state* mutation
batch of length `n` with `1 ≤ n ≤ undoLimit`, `undo(n)` restores the exact
pre-batch state and `redo(n)` afterwards restores the exact post-batch
state; and `undo` on an empty undo stack is a no-op for any step count.
The amendment restricts the claim in two ways the counterexample
`undo_structure_creating_mutation_leaves_residue` forces: (1) to
whole-state mutations — a path mutation that *creates* structure records
`prevValue = undefined`, so its undo writes `undefined` back instead of
removing the created key and does not restore the previous tree; and
(2) to `n ≥ 1` — `undo(0)` selects the entire stack via the JavaScript
`slice(-0) = slice(0)` quirk and undoes everything rather than nothing. -/
theorem wholestate_undo_redo_roundtrip (f : FormM) (vs : List JSVal)
    (h1 : 1 ≤ vs.length) (h2 : vs.length ≤ f.undoLimit) :
    (undo (applyWholeSets f vs) vs.length).state = f.state ∧
    (redo (undo (applyWholeSets f vs) vs.length) vs.length).state
      = (applyWholeSets f vs).state ∧
    ∀ (g : FormM) (steps : Nat), g.undoStack = [] → undo g steps = g := by
  have hvs : vs ≠ [] := by
    intro hv; rw [hv] at h1; exact absurd h1 (by simp)
  obtain ⟨hstate, hundo, hredo, hlimit⟩ := applyWholeSets_spec f vs hvs
  set F := applyWholeSets f vs with hF
  -- the selected undo entries are exactly the batch entries
  have hsel : jsSliceNeg vs.length F.undoStack = wsEntries f.state vs := by
    rw [hundo, jsSliceNeg_jsSliceNeg _ _ _ h1 (hlimit ▸ h2),
        jsSliceNeg_append_exact _ _ _ (wsEntries_length f.state vs).symm h1]
  have hselne : (jsSliceNeg vs.length F.undoStack).isEmpty = false := by
    rw [hsel]
    cases vs with
    | nil => exact absurd rfl hvs
    | cons v vs' => rfl
  -- replaying the entries backwards with prevValue reaches the start state
  have hpaths : ∀ e ∈ (wsEntries f.state vs).reverse, trimJS e.path = "" := by
    intro e he
    rw [wsEntries_paths f.state vs e (List.mem_reverse.mp he)]
    rfl
  have happly : applyEntries (fun e => e.prevValue) F.state
      (jsSliceNeg vs.length F.undoStack).reverse = .ok f.state := by
    rw [hsel, applyEntries_all_wholestate _ _ _ hpaths]
    have hhead : (wsEntries f.state vs).reverse.getLast? =
        some { path := "", value := .promise (vs.headD .undef) [], prevValue := f.state } := by
      rw [List.getLast?_reverse]
      cases vs with
      | nil => exact absurd rfl hvs
      | cons v vs' => rfl
    rw [hhead]
  have hundone := undo_apply F vs.length f.state hselne happly
  refine ⟨by rw [hundone], ?_, ?_⟩
  · -- redo: the redo stack after undo is exactly the batch entries
    obtain ⟨w, hw1, hw2, hw3⟩ := wsState_getLast f.state vs hvs
    have hredoStack : (undo F vs.length).redoStack = wsEntries f.state vs := by
      rw [hundone]
      show (jsSliceNeg vs.length F.undoStack ++ F.redoStack).take F.undoLimit = _
      rw [hsel, hredo, List.append_nil, hlimit]
      exact List.take_of_length_le (by rw [wsEntries_length]; exact h2)
    have htake : (undo F vs.length).redoStack.take vs.length = wsEntries f.state vs := by
      rw [hredoStack, List.take_of_length_le (by rw [wsEntries_length])]
    have htakene : ((undo F vs.length).redoStack.take vs.length).isEmpty = false := by
      rw [htake]
      cases vs with
      | nil => exact absurd rfl hvs
      | cons v vs' => rfl
    have happly2 : applyEntries (fun e => e.value) (undo F vs.length).state
        ((undo F vs.length).redoStack.take vs.length) = .ok F.state := by
      rw [htake, applyEntries_all_wholestate _ _ _
        (fun e he => by rw [wsEntries_paths f.state vs e he]; rfl)]
      cases hgl : (wsEntries f.state vs).getLast? with
      | none =>
          rw [hgl] at hw3
          exact absurd hw3 (by simp)
      | some e =>
          rw [hgl] at hw3
          have hev : e.value = .promise w [] := by simpa using hw3
          show Except.ok e.value = Except.ok F.state
          rw [hev, hstate, hw2]
    rw [redo_apply (undo F vs.length) vs.length F.state htakene happly2]
  · intro g steps hg
    unfold undo
    dsimp only
    rw [hg, jsSliceNeg_nil]
    rfl

/-- Witness for `wholestate_undo_redo_roundtrip`: two whole-state
mutations on a fresh form with the default limit, undone and redone. -/
theorem wholestate_undo_redo_roundtrip_witness :
    (undo (applyWholeSets c4Form [.num 1, .num 2]) 2).state = c4Form.state ∧
    (redo (undo (applyWholeSets c4Form [.num 1, .num 2]) 2) 2).state
      = (applyWholeSets c4Form [.num 1, .num 2]).state ∧
    undo (mkForm (.num 7) 500) 1 = mkForm (.num 7) 500 := by
  have h := wholestate_undo_redo_roundtrip c4Form [.num 1, .num 2] (by decide) (by decide)
  exact ⟨h.1, h.2.1, h.2.2 (mkForm (.num 7) 500) 1 rfl⟩

/-- Counterexample to claim C4 as stated.  First failing input: initial
state `obj []`, one accepted mutation at the structure-creating path
`"a.b"`, then `undo(1)`.  The mutation recorded
`prevValue = get(obj [], "a.b") = undefined`, so undo writes `undefined`
back at `"a.b"` instead of removing the created structure: the state after
undo is `obj [a := obj [b := undefined]]`, which is not deep-equal to the
pre-mutation state `obj []` — `undo(n)` does not restore the value before
the mutations.  Second failing input: after one accepted mutation,
`undo(0)` — which the claim (`n ≤ undoLimit` includes `n = 0`) requires to
restore the state before zero mutations, i.e. change nothing — undoes the
*entire* stack, because `undoStack().slice(-0)` evaluates as `slice(0)`
and selects every entry. -/
theorem undo_structure_creating_mutation_leaves_residue :
    c4BadForm.state = .obj [("a", .obj [("b", .promise (.num 5) [])])] ∧
    (undo c4BadForm 1).state = .obj [("a", .obj [("b", .undef)])] ∧
    isEqual (undo c4BadForm 1).state (mkForm (.obj []) 500).state = false ∧
    ((setState (mkForm (.num 0) 500) "" (.num 1)).1).state = .promise (.num 1) [] ∧
    (undo ((setState (mkForm (.num 0) 500) "" (.num 1)).1) 0).state = .num 0 :=
  ⟨rfl, rfl, rfl, rfl, rfl⟩

/-- The classification step of the requiredness resolver depends only on
the *outermost* constructor of the resolved sub-schema: it reports
not-required exactly when a requested variant is the outermost wrapper. -/
theorem isFieldRequiredCheck_iff (s : ZodType) (variant : List NullOrOptional) :
    isFieldRequiredCheck s variant = false ↔
      (variant.contains .nullable = true ∧ s.instNullable = true) ∨
      (variant.contains .optional = true ∧ s.instOptional = true) := by
  unfold isFieldRequiredCheck
  by_cases hn : variant.contains .nullable = true <;>
    by_cases ho : variant.contains .optional = true <;>
      simp only [hn, ho, Bool.not_eq_true] at * <;>
        cases s <;>
          simp [hn, ho, ZodType.instNullable, ZodType.instOptional]

/-- C9 (amended): for every schema, every path that resolves through the
schema's structural description, and every variants list, `isFieldRequired`
returns `false` exactly when the *outermost* constructor of the resolved
sub-schema is a modifier wrapper present in the requested variants; with an
empty variants list it returns `true` regardless of wrapping.  The
amendment replaces the claim's "wrapped by a modifier" with "outermost
wrapper": the source classifies with `instanceof ZodOptional` /
`instanceof ZodNullable`, which sees only the outermost wrapper object, so
a modifier buried under another wrapper is not honored (see the
counterexample `isFieldRequired_inner_wrapper_not_honored`). -/
theorem isFieldRequired_resolved_outermost (schema sub : ZodType) (path : String)
    (variant : List NullOrOptional)
    (hwalk : (path = "" ∧ sub = schema) ∨
             (path ≠ "" ∧ walkSchema (splitDots path) schema = .ok sub)) :
    isFieldRequired schema path variant = .ok (isFieldRequiredCheck sub variant) ∧
    (isFieldRequiredCheck sub variant = false ↔
      (variant.contains .nullable = true ∧ sub.instNullable = true) ∨
      (variant.contains .optional = true ∧ sub.instOptional = true)) ∧
    (variant = [] → isFieldRequiredCheck sub variant = true) := by
  refine ⟨?_, isFieldRequiredCheck_iff sub variant, ?_⟩
  · rcases hwalk with ⟨hp, hs⟩ | ⟨hp, hs⟩
    · rw [hp, hs]
      rfl
    · unfold isFieldRequired
      rw [if_neg hp, hs]
      rfl
  · intro hv
    subst hv
    cases sub <;> simp [isFieldRequiredCheck]

/-- Witness for `isFieldRequired_resolved_outermost`: the path `"f"`
resolves to a nullable-wrapped field; with variants `[nullable]` the field
is reported not required. -/
theorem isFieldRequired_resolved_outermost_witness :
    isFieldRequired (ZodType.zobject [("f", .znullable .base)]) "f" [.nullable]
      = .ok (isFieldRequiredCheck (.znullable .base) [.nullable]) ∧
    isFieldRequiredCheck (.znullable .base) [.nullable] = false := by
  have h := isFieldRequired_resolved_outermost (ZodType.zobject [("f", .znullable .base)])
    (.znullable .base) "f" [.nullable] (Or.inr ⟨by decide, rfl⟩)
  exact ⟨h.1, h.2.1.mpr (Or.inl ⟨rfl, rfl⟩)⟩

/-- Counterexample to claim C9 as stated: the field's sub-schema
`nullable(optional(base))` *is* wrapped by the modifier `optional`, and
`optional` is in the requested variants, so the claim requires
`isFieldRequired` to return `false`; the source checks `instanceof` on the
outermost wrapper only — here `ZodNullable` — and returns `true`. -/
theorem isFieldRequired_inner_wrapper_not_honored :
    wrappedBy (ZodType.znullable (ZodType.zoptional .base)) .optional = true ∧
    [NullOrOptional.optional].contains NullOrOptional.optional = true ∧
    isFieldRequired (ZodType.zobject [("field", .znullable (.zoptional .base))]) "field"
      [.optional] = .ok true :=
  ⟨rfl, rfl, rfl⟩

theorem lookupA_isSome_of_hasKeyA {fs : List (String × JSVal)} {k : String}
    (h : hasKeyA fs k = true) : ∃ c, lookupA fs k = some c := by
  unfold hasKeyA at h
  obtain ⟨p, hp⟩ := Option.isSome_iff_exists.mp h
  exact ⟨p.2, by simp [lookupA, hp]⟩

theorem find?_eq_none_of_hasKeyA_false {fs : List (String × JSVal)} {k : String}
    (h : hasKeyA fs k = false) : fs.find? (fun p => p.1 = k) = none := by
  unfold hasKeyA at h
  cases hf : fs.find? (fun p => p.1 = k) with
  | none => rfl
  | some p => rw [hf] at h; simp at h

theorem map_update_id {fs : List (String × JSVal)} {k : String} {c : JSVal}
    (h : hasKeyA fs k = false) :
    fs.map (fun p => if p.1 = k then (k, c) else p) = fs := by
  have hnone := List.find?_eq_none.mp (find?_eq_none_of_hasKeyA_false h)
  induction fs with
  | nil => rfl
  | cons p rest ih =>
      have hp : ¬ p.1 = k := by
        have := hnone p (by simp)
        simpa using this
      simp only [List.map, if_neg hp]
      rw [ih ?_ (fun q hq => hnone q (by simp [hq]))]
      unfold hasKeyA
      rw [List.find?_eq_none.mpr (fun q hq => by
        have := hnone q (by simp [hq])
        simpa using this)]
      rfl

theorem hasKeyA_of_lookupA {fs : List (String × JSVal)} {k : String} {c : JSVal}
    (h : lookupA fs k = some c) : hasKeyA fs k = true := by
  unfold lookupA at h
  unfold hasKeyA
  cases hf : fs.find? (fun p => p.1 = k) with
  | none => rw [hf] at h; simp at h
  | some p => rfl

theorem hasKeyA_cons_self {rest : List (String × JSVal)} {k : String} {v : JSVal} :
    hasKeyA ((k, v) :: rest) k = true := by
  unfold hasKeyA
  rw [List.find?_cons_of_pos _ (by simp)]
  rfl

theorem hasKeyA_cons_of_ne {rest : List (String × JSVal)} {k k' : String} {v : JSVal}
    (h : ¬ k' = k) : hasKeyA ((k', v) :: rest) k = hasKeyA rest k := by
  unfold hasKeyA
  rw [List.find?_cons_of_neg _ (by simp [h])]

theorem updateA_self {fs : List (String × JSVal)} {k : String} {c : JSVal}
    (hnd : nodupKeysA fs = true) (hl : lookupA fs k = some c) :
    updateA fs k c = fs := by
  induction fs with
  | nil => simp [lookupA] at hl
  | cons p rest ih =>
      obtain ⟨k', v'⟩ := p
      simp only [nodupKeysA, Bool.and_eq_true, Bool.not_eq_true'] at hnd
      by_cases hk : k' = k
      · subst hk
        have hv : v' = c := by
          have : some v' = some c := by
            rw [← hl]
            unfold lookupA
            rw [List.find?_cons_of_pos _ (by simp)]
            rfl
          exact Option.some.inj this
        subst hv
        unfold updateA
        rw [if_pos hasKeyA_cons_self]
        simp only [List.map, ite_self, if_pos]
        rw [map_update_id hnd.1]
      · have hl' : lookupA rest k = some c := by
          rw [← hl]
          unfold lookupA
          rw [List.find?_cons_of_neg _ (by simp [hk])]
        have hkey : hasKeyA rest k = true := hasKeyA_of_lookupA hl'
        unfold updateA
        rw [if_pos (by rw [hasKeyA_cons_of_ne hk]; exact hkey)]
        simp only [List.map, if_neg hk]
        have hrec := ih hnd.2 hl'
        unfold updateA at hrec
        rw [if_pos hkey] at hrec
        rw [hrec]

theorem setIdx_self {α : Type _} (l : List α) (i : Nat) (d : α) (h : i < l.length) :
    l.set i (l.getD i d) = l := by
  induction l generalizing i with
  | nil => simp at h
  | cons a rest ih =>
      cases i with
      | zero => rfl
      | succ j =>
          simp only [List.getD_cons_succ, List.set_cons_succ]
          rw [ih j (by simpa using h)]

theorem WFfields_lookup {fs : List (String × JSVal)} {k : String} {c : JSVal}
    (hwf : WFfields fs = true) (hl : lookupA fs k = some c) : WF c = true := by
  induction fs with
  | nil => simp [lookupA] at hl
  | cons p rest ih =>
      obtain ⟨k', v'⟩ := p
      rw [show WFfields ((k', v') :: rest) = (WF v' && WFfields rest) from rfl,
        Bool.and_eq_true] at hwf
      by_cases hk : k' = k
      · have : some v' = some c := by
          rw [← hl]
          unfold lookupA
          rw [List.find?_cons_of_pos _ (by simp [hk])]
          rfl
        rw [← Option.some.inj this]
        exact hwf.1
      · refine ih hwf.2 ?_
        rw [← hl]
        unfold lookupA
        rw [List.find?_cons_of_neg _ (by simp [hk])]

theorem WFlist_getD {es : List JSVal} (hwf : WFlist es = true) (i : Nat) :
    WF (es.getD i .undef) = true := by
  induction es generalizing i with
  | nil => cases i <;> rfl
  | cons a rest ih =>
      rw [show WFlist (a :: rest) = (WF a && WFlist rest) from rfl, Bool.and_eq_true] at hwf
      cases i with
      | zero => exact hwf.1
      | succ j => rw [List.getD_cons_succ]; exact ih hwf.2 j

/-- A raw property read on a well-formed value is well-formed. -/
theorem WF_rawGet {v : JSVal} (hwf : WF v = true) (k : String) :
    WF (JSVal.rawGet v k) = true := by
  cases v with
  | obj fs =>
      rw [show WF (.obj fs) = (nodupKeysA fs && WFfields fs) from rfl, Bool.and_eq_true] at hwf
      show WF ((lookupA fs k).getD .undef) = true
      cases hl : lookupA fs k with
      | none => rfl
      | some c => exact WFfields_lookup hwf.2 hl
  | arr es ps =>
      rw [show WF (.arr es ps)
            = (WFlist es && (!(hasKeyA ps "length") && (nodupKeysA ps && WFfields ps))) from rfl,
        Bool.and_eq_true, Bool.and_eq_true, Bool.and_eq_true] at hwf
      show WF (if k = "length" then .num es.length else _) = true
      split
      · rfl
      · cases hc : canonIdx k with
        | some i => exact WFlist_getD hwf.1 i
        | none =>
            show WF ((lookupA ps k).getD .undef) = true
            cases hl : lookupA ps k with
            | none => rfl
            | some c => exact WFfields_lookup hwf.2.2.2 hl
  | promise w ps =>
      rw [show WF (.promise w ps) = (WF w && (nodupKeysA ps && WFfields ps)) from rfl,
        Bool.and_eq_true, Bool.and_eq_true] at hwf
      show WF ((lookupA ps k).getD .undef) = true
      cases hl : lookupA ps k with
      | none => rfl
      | some c => exact WFfields_lookup hwf.2.2 hl
  | str s =>
      show WF (if k = "length" then .num s.length else _) = true
      split
      · rfl
      · cases canonIdx k with
        | some i =>
            show WF (match s.data.get? i with
              | some c => .str (String.mk [c]) | none => .undef) = true
            cases s.data.get? i <;> rfl
        | none => rfl
  | undef => rfl
  | null => rfl
  | bool b => rfl
  | num n => rfl

theorem hasProp_emptyArr (s0 : String) : JSVal.hasProp (.arr [] []) s0 = false := by
  unfold JSVal.hasProp
  cases canonIdx s0 with
  | some i => simp
  | none => rfl

theorem childFor_emptyObj (s0 s1 : String) : childFor (.obj []) s0 s1 = freshFor s1 := rfl

theorem childFor_emptyArr (s0 s1 : String) : childFor (.arr [] []) s0 s1 = freshFor s1 := by
  unfold childFor
  rw [hasProp_emptyArr]
  rfl

/-- Unfolding equation of `mutSet` at an intermediate object node. -/
theorem mutSet_step_obj (fs : List (String × JSVal)) (s0 s1 : String) (rest : List String)
    (val : JSVal) :
    mutSet (.obj fs) (s0 :: s1 :: rest) val
      = ((mutSet (childFor (.obj fs) s0 s1) (s1 :: rest) val).1,
         JSVal.rawWrite (.obj fs) s0 (mutSet (childFor (.obj fs) s0 s1) (s1 :: rest) val).2) :=
  rfl

/-- Unfolding equation of `mutSet` at an intermediate array node. -/
theorem mutSet_step_arr (es : List JSVal) (ps : List (String × JSVal)) (s0 s1 : String)
    (rest : List String) (val : JSVal) :
    mutSet (.arr es ps) (s0 :: s1 :: rest) val
      = ((mutSet (childFor (.arr es ps) s0 s1) (s1 :: rest) val).1,
         JSVal.rawWrite (.arr es ps) s0 (mutSet (childFor (.arr es ps) s0 s1) (s1 :: rest) val).2) :=
  rfl

/-- Unfolding equation of `mutSet` at an intermediate promise node. -/
theorem mutSet_step_promise (w : JSVal) (ps : List (String × JSVal)) (s0 s1 : String)
    (rest : List String) (val : JSVal) :
    mutSet (.promise w ps) (s0 :: s1 :: rest) val
      = ((mutSet (childFor (.promise w ps) s0 s1) (s1 :: rest) val).1,
         JSVal.rawWrite (.promise w ps) s0
           (mutSet (childFor (.promise w ps) s0 s1) (s1 :: rest) val).2) :=
  rfl

/-- The fresh containers `set` creates for absent intermediate segments
never raise: every deeper step either writes into them or creates further
fresh containers, and a fresh array is only created when the segment about
to address it passes the `isNaN(Number(seg))` guard. -/
theorem mutSet_freshFor_no_error (ks : List String) :
    ∀ (val : JSVal), (ks ≠ [] → (mutSet (.obj []) ks val).1 = none) ∧
      (∀ s rest, ks = s :: rest → (mutSet (freshFor s) ks val).1 = none) := by
  induction ks with
  | nil => exact fun val => ⟨fun h => absurd rfl h, fun s rest h => by cases h⟩
  | cons s0 rest ih =>
      intro val
      cases rest with
      | nil =>
          refine ⟨fun _ => rfl, fun s rest' heq => ?_⟩
          obtain ⟨hs, hr⟩ : s = s0 ∧ rest' = [] := by
            cases heq; exact ⟨rfl, rfl⟩
          subst hs; subst hr
          unfold freshFor
          by_cases hn : jsNumberNaN s = true
          · rw [if_pos hn]; rfl
          · rw [if_neg hn]
            show (if jsNumberNaN s = true then ((some SetErr.nonNumericArrayIndex : Option SetErr),
              JSVal.arr [] []) else ((none : Option SetErr),
              JSVal.rawWrite (.arr [] []) s val)).1 = none
            rw [if_neg hn]
      | cons s1 rest' =>
          have hchild := (ih val).2 s1 rest' rfl
          refine ⟨fun _ => ?_, fun s rest2 heq => ?_⟩
          · rw [mutSet_step_obj, childFor_emptyObj]
            exact hchild
          · obtain ⟨hs, hr⟩ : s = s0 ∧ rest2 = s1 :: rest' := by
              cases heq; exact ⟨rfl, rfl⟩
            subst hs; subst hr
            unfold freshFor
            by_cases hn : jsNumberNaN s = true
            · rw [if_pos hn, mutSet_step_obj, childFor_emptyObj]
              exact hchild
            · rw [if_neg hn, mutSet_step_arr, childFor_emptyArr]
              exact hchild

/-- Unfolding equation of `mutSet` at a final array node. -/
theorem mutSet_last_arr (es : List JSVal) (ps : List (String × JSVal)) (s0 : String)
    (val : JSVal) :
    mutSet (.arr es ps) [s0] val
      = if jsNumberNaN s0 = true then (some SetErr.nonNumericArrayIndex, JSVal.arr es ps)
        else ((none : Option SetErr), JSVal.rawWrite (.arr es ps) s0 val) :=
  rfl

theorem getLastD_cons₂ (a b : String) (l : List String) (d : String) :
    (a :: b :: l).getLastD d = (b :: l).getLastD d := by
  rw [List.getLastD_eq_getLast?, List.getLastD_eq_getLast?, List.getLast?_cons_cons]

/-- Every exception the walk-and-write loop raises is either the final
non-numeric-array-index `InvalidPathError` — in which case the final path
segment fails the `Number` test — or a `TypeError` (descending into
`null`). -/
theorem mutSet_error_classify (ks : List String) :
    ∀ (v val : JSVal) (e : SetErr), (mutSet v ks val).1 = some e →
      (e = .nonNumericArrayIndex ∧ jsNumberNaN (ks.getLastD "") = true) ∨ e = .typeError := by
  induction ks with
  | nil => intro v val e h; simp [mutSet] at h
  | cons s0 rest ih =>
      intro v val e h
      cases rest with
      | nil =>
          cases v with
          | arr es ps =>
              rw [mutSet_last_arr] at h
              by_cases hn : jsNumberNaN s0 = true
              · rw [if_pos hn] at h
                exact Or.inl ⟨(Option.some.inj h).symm, hn⟩
              · rw [if_neg hn] at h
                exact absurd h (by simp)
          | obj fs => exact absurd h (by simp [mutSet])
          | promise w ps => exact absurd h (by simp [mutSet])
          | null => exact Or.inr (Option.some.inj h).symm
          | undef => exact Or.inr (Option.some.inj h).symm
          | bool b => exact Or.inr (Option.some.inj h).symm
          | num n => exact Or.inr (Option.some.inj h).symm
          | str s => exact Or.inr (Option.some.inj h).symm
      | cons s1 rest' =>
          have hlast := getLastD_cons₂ s0 s1 rest' ""
          cases v with
          | obj fs =>
              rw [mutSet_step_obj] at h
              rcases ih _ val e h with ⟨he, hn⟩ | he
              · exact Or.inl ⟨he, by rw [hlast]; exact hn⟩
              · exact Or.inr he
          | arr es ps =>
              rw [mutSet_step_arr] at h
              rcases ih _ val e h with ⟨he, hn⟩ | he
              · exact Or.inl ⟨he, by rw [hlast]; exact hn⟩
              · exact Or.inr he
          | promise w ps =>
              rw [mutSet_step_promise] at h
              rcases ih _ val e h with ⟨he, hn⟩ | he
              · exact Or.inl ⟨he, by rw [hlast]; exact hn⟩
              · exact Or.inr he
          | null => exact Or.inr (Option.some.inj h).symm
          | undef => exact Or.inr (Option.some.inj h).symm
          | bool b => exact Or.inr (Option.some.inj h).symm
          | num n => exact Or.inr (Option.some.inj h).symm
          | str s => exact Or.inr (Option.some.inj h).symm

theorem canonIdx_ne_length {s0 : String} {i : Nat} (h : canonIdx s0 = some i) :
    ¬ s0 = "length" := by
  intro hl
  subst hl
  rw [show canonIdx "length" = none from rfl] at h
  cases h

/-- Writing back the value just read at an existing property restores the
node exactly (well-formedness gives key uniqueness). -/
theorem rawWrite_rawGet_self {v : JSVal} {s0 : String} (hwf : WF v = true)
    (hp : JSVal.hasProp v s0 = true) :
    JSVal.rawWrite v s0 (JSVal.rawGet v s0) = v := by
  cases v with
  | obj fs =>
      rw [show WF (.obj fs) = (nodupKeysA fs && WFfields fs) from rfl, Bool.and_eq_true] at hwf
      obtain ⟨c, hc⟩ := lookupA_isSome_of_hasKeyA hp
      show JSVal.obj (updateA fs s0 ((lookupA fs s0).getD .undef)) = .obj fs
      rw [hc, Option.getD_some, updateA_self hwf.1 hc]
  | arr es ps =>
      rw [show WF (.arr es ps)
            = (WFlist es && (!(hasKeyA ps "length") && (nodupKeysA ps && WFfields ps))) from rfl,
        Bool.and_eq_true, Bool.and_eq_true, Bool.and_eq_true] at hwf
      have hp' : (match canonIdx s0 with
          | some i => decide (i < es.length)
          | none => hasKeyA ps s0) = true := hp
      cases hci : canonIdx s0 with
      | some i =>
          rw [hci] at hp'
          have hlen : i < es.length := by simpa using hp'
          have hs0 := canonIdx_ne_length hci
          show JSVal.rawWrite (.arr es ps) s0 (JSVal.rawGet (.arr es ps) s0) = _
          simp only [JSVal.rawGet, JSVal.rawWrite, hci, if_neg hs0, if_pos hlen]
          rw [setIdx_self es i .undef hlen]
      | none =>
          rw [hci] at hp'
          by_cases hl : s0 = "length"
          · subst hl
            have hk : hasKeyA ps "length" = true := hp'
            rw [hk] at hwf
            exact absurd hwf.2.1 (by simp)
          · obtain ⟨c, hc⟩ := lookupA_isSome_of_hasKeyA hp'
            show JSVal.rawWrite (.arr es ps) s0 (JSVal.rawGet (.arr es ps) s0) = _
            simp only [JSVal.rawGet, JSVal.rawWrite, hci, if_neg hl]
            rw [hc, Option.getD_some, updateA_self hwf.2.2.1 hc]
  | promise w ps =>
      rw [show WF (.promise w ps) = (WF w && (nodupKeysA ps && WFfields ps)) from rfl,
        Bool.and_eq_true, Bool.and_eq_true] at hwf
      obtain ⟨c, hc⟩ := lookupA_isSome_of_hasKeyA hp
      show JSVal.promise w (updateA ps s0 ((lookupA ps s0).getD .undef)) = _
      rw [hc, Option.getD_some, updateA_self hwf.2.1 hc]
  | null => simp [JSVal.hasProp] at hp
  | undef => simp [JSVal.hasProp] at hp
  | bool b => simp [JSVal.hasProp] at hp
  | num n => simp [JSVal.hasProp] at hp
  | str s => simp [JSVal.hasProp] at hp

/-- The three possible outcomes of the intermediate-segment child
selection. -/
theorem childFor_cases (v : JSVal) (s0 s1 : String) :
    (JSVal.hasProp v s0 = true ∧ (JSVal.rawGet v s0).typeofObject = true ∧
      childFor v s0 s1 = JSVal.rawGet v s0) ∨
    childFor v s0 s1 = .obj [] ∨ childFor v s0 s1 = freshFor s1 := by
  unfold childFor
  by_cases hp : JSVal.hasProp v s0 = true
  · by_cases ht : (JSVal.rawGet v s0).typeofObject = true
    · exact Or.inl ⟨hp, ht, (if_pos hp).trans (if_pos ht)⟩
    · exact Or.inr (Or.inl ((if_pos hp).trans (if_neg ht)))
  · exact Or.inr (Or.inr (if_neg hp))

/-- When the walk-and-write loop raises, the node it started from is left
with its original value: exceptions can only occur along a pure descend
chain (before any write), because every write redirects the walk into a
fresh container, and fresh containers never raise. -/
theorem mutSet_error_preserves (ks : List String) :
    ∀ (v val : JSVal) (e : SetErr), WF v = true → (mutSet v ks val).1 = some e →
      (mutSet v ks val).2 = v := by
  induction ks with
  | nil => intro v val e _ h; simp [mutSet] at h
  | cons s0 rest ih =>
      intro v val e hwf h
      cases rest with
      | nil =>
          cases v with
          | arr es ps =>
              rw [mutSet_last_arr] at h ⊢
              by_cases hn : jsNumberNaN s0 = true
              · rw [if_pos hn]
              · rw [if_neg hn] at h
                simp at h
          | obj fs => simp [mutSet] at h
          | promise w ps => simp [mutSet] at h
          | null => rfl
          | undef => rfl
          | bool b => rfl
          | num n => rfl
          | str s => rfl
      | cons s1 rest' =>
          cases v with
          | obj fs =>
              rw [mutSet_step_obj] at h ⊢
              rcases childFor_cases (.obj fs) s0 s1 with ⟨hp, ht, hcf⟩ | hcf | hcf
              · rw [hcf] at h ⊢
                rw [ih _ val e (WF_rawGet hwf s0) h]
                exact rawWrite_rawGet_self hwf hp
              · rw [hcf] at h
                rw [(mutSet_freshFor_no_error (s1 :: rest')  val).1 (by simp)] at h
                simp at h
              · rw [hcf] at h
                rw [(mutSet_freshFor_no_error (s1 :: rest') val).2 s1 rest' rfl] at h
                simp at h
          | arr es ps =>
              rw [mutSet_step_arr] at h ⊢
              rcases childFor_cases (.arr es ps) s0 s1 with ⟨hp, ht, hcf⟩ | hcf | hcf
              · rw [hcf] at h ⊢
                rw [ih _ val e (WF_rawGet hwf s0) h]
                exact rawWrite_rawGet_self hwf hp
              · rw [hcf] at h
                rw [(mutSet_freshFor_no_error (s1 :: rest') val).1 (by simp)] at h
                simp at h
              · rw [hcf] at h
                rw [(mutSet_freshFor_no_error (s1 :: rest') val).2 s1 rest' rfl] at h
                simp at h
          | promise w ps =>
              rw [mutSet_step_promise] at h ⊢
              rcases childFor_cases (.promise w ps) s0 s1 with ⟨hp, ht, hcf⟩ | hcf | hcf
              · rw [hcf] at h ⊢
                rw [ih _ val e (WF_rawGet hwf s0) h]
                exact rawWrite_rawGet_self hwf hp
              · rw [hcf] at h
                rw [(mutSet_freshFor_no_error (s1 :: rest') val).1 (by simp)] at h
                simp at h
              · rw [hcf] at h
                rw [(mutSet_freshFor_no_error (s1 :: rest') val).2 s1 rest' rfl] at h
                simp at h
          | null => rfl
          | undef => rfl
          | bool b => rfl
          | num n => rfl
          | str s => rfl

/-- The top-level shallow copy of a well-formed container is well-formed. -/
theorem WF_topCopy {o : JSVal} (hwf : WF o = true) : WF (topCopy o) = true := by
  cases o with
  | arr es ps =>
      rw [show WF (.arr es ps)
            = (WFlist es && (!(hasKeyA ps "length") && (nodupKeysA ps && WFfields ps))) from rfl,
        Bool.and_eq_true, Bool.and_eq_true, Bool.and_eq_true] at hwf
      show WF (.arr es []) = true
      rw [show WF (.arr es [])
            = (WFlist es && (!(hasKeyA [] "length") && (nodupKeysA [] && WFfields []))) from rfl]
      rw [hwf.1]
      rfl
  | promise w ps =>
      rw [show WF (.promise w ps) = (WF w && (nodupKeysA ps && WFfields ps)) from rfl,
        Bool.and_eq_true, Bool.and_eq_true] at hwf
      show WF (.obj ps) = true
      rw [show WF (.obj ps) = (nodupKeysA ps && WFfields ps) from rfl]
      simp [hwf.2.1, hwf.2.2]
  | obj fs => exact hwf
  | null => exact hwf
  | undef => exact hwf
  | bool b => exact hwf
  | num n => exact hwf
  | str s => exact hwf

/-- Writing back at the original root the value read through the shallow
copy restores the original root exactly. -/
theorem rawWrite_topCopy_self {o : JSVal} {s0 : String} (hwf : WF o = true)
    (hp : JSVal.hasProp (topCopy o) s0 = true) :
    JSVal.rawWrite o s0 (JSVal.rawGet (topCopy o) s0) = o := by
  cases o with
  | obj fs => exact rawWrite_rawGet_self hwf hp
  | promise w ps =>
      rw [show WF (.promise w ps) = (WF w && (nodupKeysA ps && WFfields ps)) from rfl,
        Bool.and_eq_true, Bool.and_eq_true] at hwf
      have hp' : hasKeyA ps s0 = true := hp
      obtain ⟨c, hc⟩ := lookupA_isSome_of_hasKeyA hp'
      show JSVal.promise w (updateA ps s0 ((lookupA ps s0).getD .undef)) = _
      rw [hc, Option.getD_some, updateA_self hwf.2.1 hc]
  | arr es ps =>
      rw [show WF (.arr es ps)
            = (WFlist es && (!(hasKeyA ps "length") && (nodupKeysA ps && WFfields ps))) from rfl,
        Bool.and_eq_true, Bool.and_eq_true, Bool.and_eq_true] at hwf
      have hp' : (match canonIdx s0 with
          | some i => decide (i < es.length)
          | none => hasKeyA ([] : List (String × JSVal)) s0) = true := hp
      cases hci : canonIdx s0 with
      | some i =>
          rw [hci] at hp'
          have hlen : i < es.length := by simpa using hp'
          have hs0 := canonIdx_ne_length hci
          show JSVal.rawWrite (.arr es ps) s0 (JSVal.rawGet (.arr es []) s0) = _
          simp only [JSVal.rawGet, JSVal.rawWrite, hci, if_neg hs0, if_pos hlen]
          rw [setIdx_self es i .undef hlen]
      | none =>
          rw [hci] at hp'
          exact absurd hp' (by simp [hasKeyA])
  | null => simp [topCopy, JSVal.hasProp] at hp
  | undef => simp [topCopy, JSVal.hasProp] at hp
  | bool b => simp [topCopy, JSVal.hasProp] at hp
  | num n => simp [topCopy, JSVal.hasProp] at hp
  | str s => simp [topCopy, JSVal.hasProp] at hp

/-- C8 (amended): the exact raising discipline of `set`.  (1) When the
root is a container and the (non-empty) path has an empty segment, `set`
raises the empty-segment `InvalidPathError` at the first such segment;
(2) conversely an empty-segment `InvalidPathError` occurs only under
exactly those conditions — in particular a scalar or `null`/`undefined`
root is returned unchanged without any error, even for a malformed path;
(3) the non-numeric-index `InvalidPathError` is raised only when no
segment is empty and the *final* segment fails `isNaN(Number(seg))` while
landing on an array — an intermediate non-numeric segment on an array does
not raise (it creates a non-index property; see the counterexample);
(4) whenever `set` raises an `InvalidPathError`, the original root is left
unmodified.  (At the form level the failing mutation is *not* rejected
entirely: `setState` pushes the history entry before the exception
escapes — see the counterexample's last conjuncts.) -/
theorem set_invalidPath_characterization :
    (∀ (o : JSVal) (p : String) (v : JSVal) (i : Nat),
        isContainerRoot o = true → p ≠ "" → firstEmptyIdx (splitDots p) = some i →
        set o p v = .error (.emptyKey i)) ∧
    (∀ (o : JSVal) (p : String) (v : JSVal) (i : Nat),
        set o p v = .error (.emptyKey i) →
        isContainerRoot o = true ∧ p ≠ "" ∧ firstEmptyIdx (splitDots p) = some i) ∧
    (∀ (o : JSVal) (p : String) (v : JSVal),
        set o p v = .error .nonNumericArrayIndex →
        isContainerRoot o = true ∧ p ≠ "" ∧ firstEmptyIdx (splitDots p) = none ∧
        jsNumberNaN ((splitDots p).getLastD "") = true) ∧
    (∀ (o : JSVal) (p : String) (v : JSVal),
        WF o = true → isInvalidPathErr (set o p v) = true → setOrigAfter o p v = o) := by
  have hbranch : ∀ (o : JSVal) (p : String) (v : JSVal),
      isContainerRoot o = true → p ≠ "" →
      set o p v = (match firstEmptyIdx (splitDots p) with
        | some i => .error (.emptyKey i)
        | none => match mutSet (topCopy o) (splitDots p) v with
            | (some e, _) => .error e
            | (none, r) => .ok r) := by
    intro o p v hc hp
    unfold set
    rw [if_neg (by simp [hc]), if_neg hp]
  refine ⟨?_, ?_, ?_, ?_⟩
  · intro o p v i hc hp hi
    rw [hbranch o p v hc hp, hi]
  · intro o p v i h
    by_cases hc : isContainerRoot o = true
    · by_cases hp : p = ""
      · rw [show set o p v = .ok o from by unfold set; rw [if_neg (by simp [hc]), if_pos hp]] at h
        cases h
      · refine ⟨hc, hp, ?_⟩
        rw [hbranch o p v hc hp] at h
        cases hfe : firstEmptyIdx (splitDots p) with
        | some j =>
            rw [hfe] at h
            have := Except.error.inj h
            rw [SetErr.emptyKey.inj this]
        | none =>
            rw [hfe] at h
            cases hms : mutSet (topCopy o) (splitDots p) v with
            | mk fst snd =>
                rw [hms] at h
                cases fst with
                | none => cases h
                | some e =>
                    have he : e = .emptyKey i := Except.error.inj h
                    have := mutSet_error_classify (splitDots p) (topCopy o) v e
                      (by rw [hms])
                    rcases this with ⟨hne, _⟩ | hte
                    · rw [he] at hne; cases hne
                    · rw [he] at hte; cases hte
    · rw [show set o p v = .ok o from by unfold set; rw [if_pos (by simp [hc])]] at h
      cases h
  · intro o p v h
    by_cases hc : isContainerRoot o = true
    · by_cases hp : p = ""
      · rw [show set o p v = .ok o from by unfold set; rw [if_neg (by simp [hc]), if_pos hp]] at h
        cases h
      · refine ⟨hc, hp, ?_⟩
        rw [hbranch o p v hc hp] at h
        cases hfe : firstEmptyIdx (splitDots p) with
        | some j =>
            rw [hfe] at h
            have := Except.error.inj h
            cases this
        | none =>
            refine ⟨rfl, ?_⟩
            rw [hfe] at h
            cases hms : mutSet (topCopy o) (splitDots p) v with
            | mk fst snd =>
                rw [hms] at h
                cases fst with
                | none => cases h
                | some e =>
                    have he : e = .nonNumericArrayIndex := Except.error.inj h
                    have := mutSet_error_classify (splitDots p) (topCopy o) v e
                      (by rw [hms])
                    rcases this with ⟨_, hnan⟩ | hte
                    · exact hnan
                    · rw [he] at hte; cases hte
    · rw [show set o p v = .ok o from by unfold set; rw [if_pos (by simp [hc])]] at h
      cases h
  · intro o p v hwf he
    by_cases hc : isContainerRoot o = true
    · by_cases hp : p = ""
      · unfold setOrigAfter
        rw [if_neg (by simp [hc]), if_pos hp]
      · rw [hbranch o p v hc hp] at he
        unfold setOrigAfter
        rw [if_neg (by simp [hc]), if_neg hp]
        dsimp only
        cases hfe : firstEmptyIdx (splitDots p) with
        | some j => rfl
        | none =>
            cases hks : splitDots p with
            | nil => rfl
            | cons s0 rest =>
                cases rest with
                | nil => rfl
                | cons s1 rest' =>
                    rw [hfe, hks] at he
                    show (if JSVal.hasProp (topCopy o) s0 = true ∧
                        (JSVal.rawGet (topCopy o) s0).typeofObject = true then
                          JSVal.rawWrite o s0
                            (mutSet (JSVal.rawGet (topCopy o) s0) (s1 :: rest') v).2
                        else o) = o
                    by_cases hcond : JSVal.hasProp (topCopy o) s0 = true ∧
                        (JSVal.rawGet (topCopy o) s0).typeofObject = true
                    · rw [if_pos hcond]
                      have hcf : childFor (topCopy o) s0 s1 = JSVal.rawGet (topCopy o) s0 :=
                        (if_pos hcond.1).trans (if_pos hcond.2)
                      have hwfc : WF (JSVal.rawGet (topCopy o) s0) = true :=
                        WF_rawGet (WF_topCopy hwf) s0
                      have hstep : (mutSet (topCopy o) (s0 :: s1 :: rest') v).1
                          = (mutSet (JSVal.rawGet (topCopy o) s0) (s1 :: rest') v).1 := by
                        cases o with
                        | obj fs =>
                            rw [show topCopy (.obj fs) = .obj fs from rfl] at hcf ⊢
                            rw [mutSet_step_obj, hcf]
                        | arr es ps =>
                            rw [show topCopy (.arr es ps) = .arr es [] from rfl] at hcf ⊢
                            rw [mutSet_step_arr, hcf]
                        | promise w ps =>
                            rw [show topCopy (.promise w ps) = .obj ps from rfl] at hcf ⊢
                            rw [mutSet_step_obj, hcf]
                        | null => cases hc
                        | undef => cases hc
                        | bool b => cases hc
                        | num n => cases hc
                        | str s => cases hc
                      cases hms : mutSet (JSVal.rawGet (topCopy o) s0) (s1 :: rest') v with
                      | mk fst snd =>
                          cases fst with
                          | none =>
                              exfalso
                              have h1 : (mutSet (topCopy o) (s0 :: s1 :: rest') v).1 = none := by
                                rw [hstep, hms]
                              cases hms2 : mutSet (topCopy o) (s0 :: s1 :: rest') v with
                              | mk f2 s2 =>
                                  rw [hms2] at he h1
                                  have hf2 : f2 = none := h1
                                  rw [hf2] at he
                                  have he' : isInvalidPathErr
                                      (Except.ok s2 : Except SetErr JSVal) = true := he
                                  rw [show isInvalidPathErr
                                      (Except.ok s2 : Except SetErr JSVal) = false
                                      from rfl] at he'
                                  cases he'
                          | some e =>
                              have hpres := mutSet_error_preserves (s1 :: rest')
                                (JSVal.rawGet (topCopy o) s0) v e hwfc (by rw [hms])
                              rw [hms] at hpres
                              have hsnd : snd = JSVal.rawGet (topCopy o) s0 := hpres
                              rw [show ((some e, snd) : Option SetErr × JSVal).2 = snd from rfl,
                                hsnd]
                              exact rawWrite_topCopy_self hwf hcond.1
                    · rw [if_neg hcond]
    · unfold setOrigAfter
      rw [if_pos (by simp [hc])]

/-- Witness for the C8 characterization at concrete inputs: the path
`"a..b"` on the container `{a: 1}` has its first empty segment at index 1,
and `set` raises exactly `InvalidPathError` for empty key 1 (part 1);
conversely that error implies the three conditions (part 2); and since an
error was raised the original root is untouched (part 4). -/
theorem set_invalidPath_characterization_witness :
    set (.obj [("a", .num 1)]) "a..b" (.num 7) = .error (.emptyKey 1) ∧
    (isContainerRoot (.obj [("a", .num 1)]) = true ∧ "a..b" ≠ "" ∧
      firstEmptyIdx (splitDots "a..b") = some 1) ∧
    setOrigAfter (.obj [("a", .num 1)]) "a..b" (.num 7) = .obj [("a", .num 1)] := by
  refine ⟨?h1, ?h2, ?h4⟩
  case h1 =>
    exact set_invalidPath_characterization.1 (.obj [("a", .num 1)]) "a..b" (.num 7) 1
      rfl (by decide) rfl
  case h2 =>
    exact set_invalidPath_characterization.2.1 (.obj [("a", .num 1)]) "a..b" (.num 7) 1 rfl
  case h4 =>
    exact set_invalidPath_characterization.2.2.2 (.obj [("a", .num 1)]) "a..b" (.num 7) rfl rfl

/-- C8 counterexample to the claim as written.  (a) A non-numeric key *is*
forced onto an existing sequence — `"a.b.c"` walks through the array at
`a` with the non-numeric intermediate segment `"b"` — yet `set` does not
raise: it records `b` as a non-index expando property on the array and
succeeds (`current[key] = {} or []` in `helpers.tsx` runs for any absent
key; the `isNaN` check guards only the final segment).  (b) A path with an
empty (leading) segment does *not* raise on a scalar root: `typeof 42 !==
"object"` makes `set` return the root untouched before any path check.
(c) At the form level the failing mutation does not "fail entirely":
`setState` pushes the history entry (and clears the redo stack) *before*
the `set` call throws, so the undo stack grows by one even though the
state write is aborted. -/
theorem set_invalidPath_claim_false :
    jsNumberNaN "b" = true ∧
    JSVal.rawGet (.obj [("a", .arr [.num 1] [])]) "a" = .arr [.num 1] [] ∧
    set (.obj [("a", .arr [.num 1] [])]) "a.b.c" (.num 7)
      = .ok (.obj [("a", .arr [.num 1] [("b", .obj [("c", .num 7)])])]) ∧
    firstEmptyIdx (splitDots ".a") = some 0 ∧
    set (.num 42) ".a" (.num 2) = .ok (.num 42) ∧
    (setState (mkForm (.obj []) 500) ".x" (.num 1)).2 = some (.emptyKey 0) ∧
    ((setState (mkForm (.obj []) 500) ".x" (.num 1)).1).undoStack.length = 1 :=
  ⟨rfl, rfl, rfl, rfl, rfl, rfl, rfl⟩

theorem lookupA_cons_self (rest : List (String × JSVal)) (k : String) (v : JSVal) :
    lookupA ((k, v) :: rest) k = some v := by
  unfold lookupA
  rw [List.find?_cons_of_pos _ (by simp)]
  rfl

theorem lookupA_cons_ne (rest : List (String × JSVal)) {k k' : String} (v' : JSVal)
    (h : ¬ k' = k) : lookupA ((k', v') :: rest) k = lookupA rest k := by
  unfold lookupA
  rw [List.find?_cons_of_neg _ (by simp [h])]

theorem lookupA_append_right : ∀ (fs : List (String × JSVal)) (k : String) (v : JSVal),
    hasKeyA fs k = false → lookupA (fs ++ [(k, v)]) k = some v
  | [], k, v, _ => lookupA_cons_self [] k v
  | (k', v') :: rest, k, v, h => by
      have hne : ¬ k' = k := by
        intro he
        subst he
        rw [hasKeyA_cons_self] at h
        cases h
      rw [List.cons_append, lookupA_cons_ne _ v' hne]
      refine lookupA_append_right rest k v ?_
      rw [hasKeyA_cons_of_ne hne] at h
      exact h

theorem lookupA_map_overwrite (k : String) (v : JSVal) :
    ∀ (fs : List (String × JSVal)), hasKeyA fs k = true →
    lookupA (fs.map (fun p => if p.1 = k then (k, v) else p)) k = some v
  | [], hk => Bool.noConfusion hk
  | (k', v') :: rest, hk => by
      by_cases he : k' = k
      · subst he
        rw [List.map_cons, show (if ((k', v') : String × JSVal).1 = k' then (k', v) else (k', v'))
            = (k', v) from if_pos rfl]
        exact lookupA_cons_self _ k' v
      · rw [List.map_cons, show (if ((k', v') : String × JSVal).1 = k then (k, v) else (k', v'))
            = (k', v') from if_neg he, lookupA_cons_ne _ v' he]
        refine lookupA_map_overwrite k v rest ?_
        rw [hasKeyA_cons_of_ne he] at hk
        exact hk

/-- Reading back the key just written by the JS property assignment
modelled by `updateA` yields the written value. -/
theorem lookupA_updateA (fs : List (String × JSVal)) (k : String) (v : JSVal) :
    lookupA (updateA fs k v) k = some v := by
  unfold updateA
  by_cases hk : hasKeyA fs k = true
  · rw [if_pos hk]
    exact lookupA_map_overwrite k v fs hk
  · rw [if_neg hk]
    refine lookupA_append_right fs k v ?_
    cases hx : hasKeyA fs k with
    | true => exact absurd hx hk
    | false => rfl

theorem getD_concat_self : ∀ (l : List JSVal) (x d : JSVal),
    (l ++ [x]).getD l.length d = x
  | [], _, _ => rfl
  | _ :: rest, x, d => getD_concat_self rest x d

theorem setIdx_getD : ∀ (l : List JSVal) (i : Nat) (x d : JSVal), i < l.length →
    (l.set i x).getD i d = x
  | [], i, _, _, h => absurd h (Nat.not_lt_zero i)
  | _ :: _, 0, _, _, _ => rfl
  | _ :: rest, i + 1, x, d, h => setIdx_getD rest i x d (Nat.lt_of_succ_lt_succ h)

/-- A canonical array-index segment is in particular a `/^\d+$/` segment
whose `parseInt` value is the index — the bridge between `set`'s property
addressing and `get`'s `Array.isArray` branch. -/
theorem canonIdx_digits {s : String} {i : Nat} (h : canonIdx s = some i) :
    isDigits s = true ∧ digitsVal s = i := by
  unfold canonIdx at h
  split at h
  · next hcond => exact ⟨hcond.1, Option.some.inj h⟩
  · cases h

/-- Element read after the array write of `set`: writing at a canonical
index `i` (in bounds or padding past the end) stores the value at slot `i`. -/
theorem padGetD (es : List JSVal) (i : Nat) (x d : JSVal) (h : ¬ i < es.length) :
    (es ++ List.replicate (i - es.length) JSVal.undef ++ [x]).getD i d = x := by
  have hlen : (es ++ List.replicate (i - es.length) JSVal.undef).length = i := by
    rw [List.length_append, List.length_replicate]
    omega
  have hcat := getD_concat_self (es ++ List.replicate (i - es.length) JSVal.undef) x d
  rw [hlen] at hcat
  rw [List.append_assoc] at hcat ⊢
  exact hcat

/-- `get`'s traversal step reads back the child `set` just wrote into a
plain object. -/
theorem stepWalk_rawWrite_obj (fs : List (String × JSVal)) (s0 : String) (x : JSVal) :
    stepWalk (JSVal.rawWrite (.obj fs) s0 x) s0 = x := by
  show (lookupA (updateA fs s0 x) s0).getD JSVal.undef = x
  rw [lookupA_updateA]
  rfl

/-- `get`'s traversal step reads back the child `set` just wrote into an
array, provided the segment is a canonical index (then `get`'s
`/^\d+$/` + `parseInt` addressing coincides with the element write). -/
theorem stepWalk_rawWrite_arr (es : List JSVal) (ps : List (String × JSVal)) {s0 : String}
    {i : Nat} (hci : canonIdx s0 = some i) (x : JSVal) :
    stepWalk (JSVal.rawWrite (.arr es ps) s0 x) s0 = x := by
  obtain ⟨hd, hv⟩ := canonIdx_digits hci
  have hwa : JSVal.rawWrite (.arr es ps) s0 x
      = if i < es.length then JSVal.arr (es.set i x) ps
        else JSVal.arr (es ++ List.replicate (i - es.length) JSVal.undef ++ [x]) ps := by
    show (match canonIdx s0 with
      | some j =>
          if j < es.length then JSVal.arr (es.set j x) ps
          else JSVal.arr (es ++ List.replicate (j - es.length) JSVal.undef ++ [x]) ps
      | none => JSVal.arr es (updateA ps s0 x)) = _
    rw [hci]
  rw [hwa]
  by_cases hlt : i < es.length
  · rw [if_pos hlt]
    show (if isDigits s0 = true then (es.set i x).getD (digitsVal s0) JSVal.undef
        else JSVal.undef) = x
    rw [if_pos hd, hv]
    exact setIdx_getD es i x JSVal.undef hlt
  · rw [if_neg hlt]
    show (if isDigits s0 = true
        then (es ++ List.replicate (i - es.length) JSVal.undef ++ [x]).getD (digitsVal s0)
          JSVal.undef
        else JSVal.undef) = x
    rw [if_pos hd, hv]
    exact padGetD es i x JSVal.undef hlt

/-- The read-after-write core of claim C6, at the level of `set`'s
walk-and-write loop: on a `SafeWalk` segment list the loop raises nothing,
and `get`'s traversal of the written node — walking the non-final segments
and raw-reading the final one — returns exactly the written value. -/
theorem mutSet_read_after_write : ∀ (ks : List String) (w val : JSVal),
    SafeWalk w ks = true →
    (mutSet w ks val).1 = none ∧
    (walkSegs (mutSet w ks val).2 ks.dropLast).rawGet (ks.getLastD "") = val
  | [], _, _, h => Bool.noConfusion h
  | [last], w, val, h => by
      cases w with
      | obj fs =>
          refine ⟨rfl, ?_⟩
          show (lookupA (updateA fs last val) last).getD JSVal.undef = val
          rw [lookupA_updateA]
          rfl
      | arr es ps =>
          have h2 := of_decide_eq_true
            (show decide (¬ jsNumberNaN last = true ∧ ¬ last = "length") = true from h)
          have hnan : jsNumberNaN last = false := by
            cases hx : jsNumberNaN last with
            | true => exact absurd hx h2.1
            | false => rfl
          rw [mutSet_last_arr, if_neg (by rw [hnan]; simp)]
          refine ⟨rfl, ?_⟩
          show (JSVal.rawWrite (.arr es ps) last val).rawGet last = val
          cases hci : canonIdx last with
          | some i =>
              have hwa : JSVal.rawWrite (.arr es ps) last val
                  = if i < es.length then JSVal.arr (es.set i val) ps
                    else JSVal.arr (es ++ List.replicate (i - es.length) JSVal.undef
                      ++ [val]) ps := by
                show (match canonIdx last with
                  | some j =>
                      if j < es.length then JSVal.arr (es.set j val) ps
                      else JSVal.arr (es ++ List.replicate (j - es.length) JSVal.undef
                        ++ [val]) ps
                  | none => JSVal.arr es (updateA ps last val)) = _
                rw [hci]
              rw [hwa]
              by_cases hlt : i < es.length
              · rw [if_pos hlt]
                show (if last = "length" then JSVal.num (es.set i val).length
                    else match canonIdx last with
                      | some j => (es.set i val).getD j JSVal.undef
                      | none => (lookupA ps last).getD JSVal.undef) = val
                rw [if_neg h2.2, hci]
                exact setIdx_getD es i val JSVal.undef hlt
              · rw [if_neg hlt]
                show (if last = "length"
                    then JSVal.num (es ++ List.replicate (i - es.length) JSVal.undef
                      ++ [val]).length
                    else match canonIdx last with
                      | some j =>
                          (es ++ List.replicate (i - es.length) JSVal.undef ++ [val]).getD j
                            JSVal.undef
                      | none => (lookupA ps last).getD JSVal.undef) = val
                rw [if_neg h2.2, hci]
                exact padGetD es i val JSVal.undef hlt
          | none =>
              have hwa : JSVal.rawWrite (.arr es ps) last val
                  = JSVal.arr es (updateA ps last val) := by
                show (match canonIdx last with
                  | some j =>
                      if j < es.length then JSVal.arr (es.set j val) ps
                      else JSVal.arr (es ++ List.replicate (j - es.length) JSVal.undef
                        ++ [val]) ps
                  | none => JSVal.arr es (updateA ps last val)) = _
                rw [hci]
              rw [hwa]
              show (if last = "length" then JSVal.num es.length
                  else match canonIdx last with
                    | some j => es.getD j JSVal.undef
                    | none => (lookupA (updateA ps last val) last).getD JSVal.undef) = val
              rw [if_neg h2.2, hci, lookupA_updateA]
              rfl
      | promise w' ps => exact Bool.noConfusion h
      | null => exact Bool.noConfusion h
      | undef => exact Bool.noConfusion h
      | bool b => exact Bool.noConfusion h
      | num n => exact Bool.noConfusion h
      | str s => exact Bool.noConfusion h
  | s0 :: s1 :: rest, w, val, h => by
      cases w with
      | obj fs =>
          have h' : SafeWalk (childFor (.obj fs) s0 s1) (s1 :: rest) = true := h
          obtain ⟨ih1, ih2⟩ := mutSet_read_after_write (s1 :: rest)
            (childFor (.obj fs) s0 s1) val h'
          rw [mutSet_step_obj]
          refine ⟨ih1, ?_⟩
          rw [getLastD_cons₂]
          show (walkSegs (stepWalk (JSVal.rawWrite (.obj fs) s0
              (mutSet (childFor (.obj fs) s0 s1) (s1 :: rest) val).2) s0)
              ((s1 :: rest).dropLast)).rawGet ((s1 :: rest).getLastD "") = val
          rw [stepWalk_rawWrite_obj]
          exact ih2
      | arr es ps =>
          have h' : (match canonIdx s0 with
              | none => false
              | some _ => SafeWalk (childFor (.arr es ps) s0 s1) (s1 :: rest)) = true := h
          cases hci : canonIdx s0 with
          | none =>
              rw [hci] at h'
              cases h'
          | some i =>
              rw [hci] at h'
              obtain ⟨ih1, ih2⟩ := mutSet_read_after_write (s1 :: rest)
                (childFor (.arr es ps) s0 s1) val h'
              rw [mutSet_step_arr]
              refine ⟨ih1, ?_⟩
              rw [getLastD_cons₂]
              show (walkSegs (stepWalk (JSVal.rawWrite (.arr es ps) s0
                  (mutSet (childFor (.arr es ps) s0 s1) (s1 :: rest) val).2) s0)
                  ((s1 :: rest).dropLast)).rawGet ((s1 :: rest).getLastD "") = val
              rw [stepWalk_rawWrite_arr es ps hci]
              exact ih2
      | promise w' ps => exact Bool.noConfusion h
      | null => exact Bool.noConfusion h
      | undef => exact Bool.noConfusion h
      | bool b => exact Bool.noConfusion h
      | num n => exact Bool.noConfusion h
      | str s => exact Bool.noConfusion h

theorem splitDotsAux_ne_nil : ∀ (cs acc : List Char), splitDotsAux cs acc ≠ [] := by
  intro cs
  induction cs with
  | nil => exact fun acc => List.cons_ne_nil _ _
  | cons c rest ih =>
      intro acc
      by_cases hc : c = '.'
      · subst hc
        exact List.cons_ne_nil _ _
      · have he : splitDotsAux (c :: rest) acc = splitDotsAux rest (c :: acc) := by
          simp [splitDotsAux, hc]
        rw [he]
        exact ih _

/-- A segment list with no empty segment and at least one segment has a
non-empty final segment, so `get`'s `!lastKey` early return does not
trigger. -/
theorem firstEmptyIdx_none_last : ∀ (l : List String), l ≠ [] →
    firstEmptyIdx l = none → l.getLastD "" ≠ "" := by
  intro l
  induction l with
  | nil => exact fun h => absurd rfl h
  | cons a rest ih =>
      intro _ hfe
      by_cases ha : a = ""
      · subst ha
        rw [show firstEmptyIdx ("" :: rest) = some 0 from rfl] at hfe
        cases hfe
      · cases rest with
        | nil => simpa using ha
        | cons b rest' =>
            rw [getLastD_cons₂]
            refine ih (List.cons_ne_nil _ _) ?_
            have he : firstEmptyIdx (a :: b :: rest')
                = (firstEmptyIdx (b :: rest')).map (· + 1) := by
              simp [firstEmptyIdx, ha]
            rw [he] at hfe
            cases hx : firstEmptyIdx (b :: rest') with
            | none => rfl
            | some j => rw [hx] at hfe; cases hfe

/-- C6 (amended): read-after-write `get(set(root, p, v), p) = v` holds for a
container root and a path with no empty segment whose segment list passes
`SafeWalk` on the shallow top-level copy — the sufficient condition ruling
out the addressing mismatches between `set` (raw JS property writes:
expando properties on arrays for non-canonical segments) and `get`
(`/^\d+$/`-only array indexing, `[object Object]`-only descent); `set` then
succeeds and the written value is read back verbatim.  The condition is
genuinely needed: the counterexample shows a path that `set` accepts whose
write `get` cannot see. -/
theorem set_get_read_after_write (o : JSVal) (p : String) (v : JSVal)
    (hc : isContainerRoot o = true) (hp : p ≠ "")
    (hfe : firstEmptyIdx (splitDots p) = none)
    (hsw : SafeWalk (topCopy o) (splitDots p) = true) :
    ∃ r, set o p v = .ok r ∧ get r p = v := by
  obtain ⟨h1, h2⟩ := mutSet_read_after_write (splitDots p) (topCopy o) v hsw
  have hlast : (splitDots p).getLastD "" ≠ "" :=
    firstEmptyIdx_none_last _ (splitDotsAux_ne_nil _ _) hfe
  have hb : set o p v = (match mutSet (topCopy o) (splitDots p) v with
      | (some e, _) => Except.error e
      | (none, r) => Except.ok r) := by
    unfold set
    rw [if_neg (by simp [hc]), if_neg hp]
    dsimp only
    rw [hfe]
  cases hms : mutSet (topCopy o) (splitDots p) v with
  | mk fst snd =>
      rw [hms] at h1 h2 hb
      have hf : fst = none := h1
      rw [hf] at hb
      refine ⟨snd, hb, ?_⟩
      unfold get
      rw [if_neg hp]
      dsimp only
      rw [if_neg hlast]
      exact h2

/-- Witness for C6 at a concrete input: on the root `{a: {}}` and the path
`"a.b"` (container root, no empty segment, `SafeWalk` through the plain
object `a`) `set` succeeds and `get` reads the written `5` back. -/
theorem set_get_read_after_write_witness :
    ∃ r, set (.obj [("a", .obj [])]) "a.b" (.num 5) = .ok r ∧
      get r "a.b" = .num 5 :=
  set_get_read_after_write (.obj [("a", .obj [])]) "a.b" (.num 5) rfl (by decide) rfl rfl

/-- C6 counterexample to the claim as written: the path `"a.b.c"` on
`{a: [1]}` is accepted by `set` — no `InvalidPathError`, the write lands as
the expando property `b` on the array — yet `get` on the returned root
gives `undefined`, not the written `7`: `get`'s traversal only indexes an
array by a `/^\d+$/` segment and refuses to descend otherwise.  So
read-after-write fails on a path that the accessor itself considers valid
(it raises nothing), refuting `get(set(root, p, v), p) = v` as stated. -/
theorem get_after_set_misses_expando :
    set (.obj [("a", .arr [.num 1] [])]) "a.b.c" (.num 7)
      = .ok (.obj [("a", .arr [.num 1] [("b", .obj [("c", .num 7)])])]) ∧
    get (.obj [("a", .arr [.num 1] [("b", .obj [("c", .num 7)])])]) "a.b.c" = .undef ∧
    JSVal.undef ≠ JSVal.num 7 := by
  refine ⟨rfl, rfl, ?_⟩
  intro h
  cases h

theorem walkSegs_undef : ∀ ks : List String, walkSegs JSVal.undef ks = JSVal.undef
  | [] => rfl
  | _ :: ks => walkSegs_undef ks

theorem walkSegs_null_rawGet : ∀ (ks : List String) (k : String),
    (walkSegs JSVal.null ks).rawGet k = JSVal.undef
  | [], _ => rfl
  | s :: ks, k => by
      show (walkSegs (stepWalk JSVal.null s) ks).rawGet k = JSVal.undef
      rw [show stepWalk JSVal.null s = JSVal.undef from rfl, walkSegs_undef]
      rfl

theorem getD_oob : ∀ (l : List JSVal) (n : Nat) (d : JSVal), ¬ n < l.length →
    l.getD n d = d
  | [], _, _, _ => rfl
  | _ :: _, 0, _, h => absurd (Nat.zero_lt_succ _) h
  | _ :: rest, n + 1, d, h => getD_oob rest n d (fun hlt => h (Nat.succ_lt_succ hlt))

/-- C7 (amended): `get` is a total function on the model (it never
throws), and its actual return discipline is: (1) the empty path returns
the root itself — even a `null` or `undefined` root, which therefore does
*not* short-circuit to `undefined` on that path; (2) a path whose final
segment is empty (a trailing dot) also returns the root; (3) on every
other path a `null` or `undefined` root does yield `undefined`; (4) a
traversal step that does not resolve — a plain object missing the key, an
array indexed out of bounds or by a non-`/^\d+$/` segment, or any scalar /
promise — yields `undefined`; (5) once `undefined`, the rest of the walk
stays `undefined`; (6) the final raw read on `undefined`, `null`, a
boolean or a number is `undefined` (strings are *not* listed: indexing
into them succeeds — see the counterexample). -/
theorem get_total_undefined_discipline :
    (∀ o : JSVal, get o "" = o) ∧
    (∀ (o : JSVal) (p : String), p ≠ "" → (splitDots p).getLastD "" = "" → get o p = o) ∧
    (∀ p : String, p ≠ "" → (splitDots p).getLastD "" ≠ "" →
        get JSVal.null p = .undef ∧ get JSVal.undef p = .undef) ∧
    (∀ (v : JSVal) (k : String), resolvesStep v k = false → stepWalk v k = .undef) ∧
    (∀ ks : List String, walkSegs JSVal.undef ks = .undef) ∧
    (∀ k : String, JSVal.rawGet .undef k = .undef ∧ JSVal.rawGet .null k = .undef ∧
        (∀ b : Bool, JSVal.rawGet (.bool b) k = .undef) ∧
        (∀ n : Int, JSVal.rawGet (.num n) k = .undef)) := by
  refine ⟨?_, ?_, ?_, ?_, walkSegs_undef, ?_⟩
  · intro o
    unfold get
    rw [if_pos rfl]
  · intro o p hp hl
    unfold get
    rw [if_neg hp]
    dsimp only
    rw [if_pos hl]
  · intro p hp hl
    constructor
    · unfold get
      rw [if_neg hp]
      dsimp only
      rw [if_neg hl]
      exact walkSegs_null_rawGet _ _
    · unfold get
      rw [if_neg hp]
      dsimp only
      rw [if_neg hl, walkSegs_undef]
      rfl
  · intro v k h
    cases v with
    | obj fs =>
        have h' : hasKeyA fs k = false := h
        show (lookupA fs k).getD JSVal.undef = JSVal.undef
        unfold lookupA
        rw [find?_eq_none_of_hasKeyA_false h']
        rfl
    | arr es ps =>
        have h' := of_decide_eq_false
          (show decide (isDigits k = true ∧ digitsVal k < es.length) = false from h)
        show (if isDigits k = true then es.getD (digitsVal k) JSVal.undef else JSVal.undef)
          = JSVal.undef
        by_cases hd : isDigits k = true
        · rw [if_pos hd]
          refine getD_oob es (digitsVal k) JSVal.undef ?_
          intro hlt
          exact h' ⟨hd, hlt⟩
        · rw [if_neg hd]
    | promise w ps => rfl
    | null => rfl
    | undef => rfl
    | bool b => rfl
    | num n => rfl
    | str s => rfl
  · intro k
    exact ⟨rfl, rfl, fun b => rfl, fun n => rfl⟩

/-- Witness for the C7 discipline at concrete inputs: the empty path
returns the root; the trailing-dot path `"a."` returns the root; `get` on
a `null` root with the proper path `"a"` is `undefined`; the missing key
`"b"` on `{a: 3}` resolves to nothing and the step yields `undefined`. -/
theorem get_total_undefined_discipline_witness :
    get (.obj [("a", .num 3)]) "" = .obj [("a", .num 3)] ∧
    get (.obj [("a", .num 3)]) "a." = .obj [("a", .num 3)] ∧
    get JSVal.null "a" = .undef ∧
    stepWalk (.obj [("a", .num 3)]) "b" = .undef :=
  ⟨get_total_undefined_discipline.1 _,
   get_total_undefined_discipline.2.1 _ "a." (by decide) rfl,
   (get_total_undefined_discipline.2.2.1 "a" (by decide) (by decide)).1,
   get_total_undefined_discipline.2.2.2.1 _ "b" rfl⟩

/-- C7 counterexample to the claim as written.  (a) A `null` root does not
short-circuit to `undefined` on the empty path: `get(null, "")` returns
`null` itself (the `path === ""` early return precedes everything).
(b) Descending into a scalar does not generally return `undefined`: on
`{a: "hi"}` the path `"a.0"` indexes the *string* — the final access
`result?.[lastKey]` is an unguarded property read — and returns the
character `"h"`.  (c) A trailing-dot path returns the whole root (the
`if (!lastKey) return obj` guard), not `undefined` and not a resolved
value. -/
theorem get_unresolvable_claim_false :
    get JSVal.null "" = JSVal.null ∧ JSVal.null ≠ JSVal.undef ∧
    get (.obj [("a", .str "hi")]) "a.0" = .str "h" ∧ JSVal.str "h" ≠ JSVal.undef ∧
    get (.obj [("x", .num 1)]) "x." = .obj [("x", .num 1)] := by
  refine ⟨rfl, ?_, rfl, ?_, rfl⟩
  · intro h
    cases h
  · intro h
    cases h

end Formix
